import Mathlib

/-!
# Verification of the TDA feature-extraction engine

Shallow embedding of the topological-data-analysis core of the repository
(`apps/ml-api/src/tda/*.py`) and proofs of the specification claims about it.

Numeric conventions: Python floats on the exactly-representable code paths are
modelled as rationals (`ℚ`); values produced by `sqrt`/`log` are modelled in
`ℝ` via `Real.sqrt`/`Real.log`.  Persistence-diagram points are (birth, death)
pairs where an infinite death is `Option.none`.  Calls into the external
`ripser`/`gudhi` C libraries are modelled as oracle parameters: the embedding
covers all post-processing, dispatch and control flow written in the
repository itself.
-/

/-- A persistence-diagram point: birth plus finite death (`some`) or
infinite death (`none`), matching numpy rows whose death may be `inf`. -/
abbrev PPair : Type := ℚ × Option ℚ

/-- Finite lifespans of a diagram: embeds `dgm[:,1] - dgm[:,0]` followed by
filtering out non-finite entries (`persistence.py` lines 59-60,
`vectorize.py` lines 41-42). -/
def lifespansOf (dgm : List PPair) : List ℚ :=
  dgm.filterMap fun p => p.2.map fun death => death - p.1

/-- `np.mean` of a list: sum divided by length. -/
def npMean (l : List ℚ) : ℚ := l.sum / l.length

/-- `np.max` of a list (defined as 0 on the empty list, which the code never
hits: every call site guards on nonemptiness). -/
def npMax (l : List ℚ) : ℚ := (l.max?).getD 0

/-- `np.min` of a list, same convention as `npMax`. -/
def npMin (l : List ℚ) : ℚ := (l.min?).getD 0

/-- `np.percentile` with numpy's default linear interpolation: on the sorted
data of length `m`, the value at fractional position `q/100 * (m-1)`. -/
def npPercentile (l : List ℚ) (q : ℚ) : ℚ :=
  let s := l.insertionSort (· ≤ ·)
  let pos : ℚ := q / 100 * ((s.length : ℚ) - 1)
  let i : ℕ := (⌊pos⌋).toNat
  let lo := s.getD i 0
  let hi := s.getD (i + 1) lo
  lo + (pos - (i : ℚ)) * (hi - lo)

/-- `np.median` equals the 50th percentile under linear interpolation. -/
def npMedian (l : List ℚ) : ℚ := npPercentile l 50

/-- `np.std` (population standard deviation): square root of the mean squared
deviation.  The square root lives in `ℝ`. -/
noncomputable def npStd (l : List ℚ) : ℝ :=
  Real.sqrt (((l.map fun x => ((x - npMean l : ℚ) : ℝ) ^ 2).sum) / l.length)

/-- The `1e-10` regularizer used by the entropy computations. -/
def epsTen : ℚ := 1 / 10 ^ 10

/-- The `1e-6` covariance ridge used by the anomaly detector. -/
def epsSix : ℚ := 1 / 10 ^ 6

/-- Shannon entropy of a lifespan list as computed by the code:
`normed = l / (l.sum + 1e-10)` then `-Σ normed * log (normed + 1e-10)`. -/
noncomputable def lifespanEntropy (l : List ℚ) : ℝ :=
  -((l.map fun x =>
      let p : ℚ := x / (l.sum + epsTen)
      (p : ℝ) * Real.log ((p : ℝ) + (epsTen : ℝ))).sum)

/-! ## Delay embedding (`timeseries.py`, `takens_embedding`) -/

/-- Embeds `takens_embedding`: converts a scalar series into a point cloud of
`n - (d-1)*delay` points in dimension `d`, where point `j` has coordinate `i`
equal to `x (j + i*delay)`; raises `ValueError` ("Time series too short")
when that count is not positive. -/
def takensEmbedding (ts : List ℚ) (delay dimension : ℕ) :
    Except String (List (List ℚ)) :=
  let n := ts.length
  if n ≤ (dimension - 1) * delay then
    Except.error "Time series too short"
  else
    let numPoints := n - (dimension - 1) * delay
    Except.ok ((List.range numPoints).map fun j =>
      (List.range dimension).map fun i => ts.getD (i * delay + j) 0)

/-! ## Vectorizer (`vectorize.py`, `persistence_statistics`) -/

/-- `FEATURES_PER_DIM` from `vectorize.py`. -/
def FEATURES_PER_DIM : ℕ := 12

/-- `NUM_DIMS` from `vectorize.py` (H0, H1, H2). -/
def NUM_DIMS : ℕ := 3

/-- `TOTAL_FEATURES = FEATURES_PER_DIM * NUM_DIMS`. -/
def TOTAL_FEATURES : ℕ := FEATURES_PER_DIM * NUM_DIMS

/-- Python `dict.get(key, default)` on an association-list model of a dict. -/
def dictGetD (d : List (String × α)) (k : String) (default : α) : α :=
  ((d.find? fun kv => kv.1 = k).map Prod.snd).getD default

/-- The 12-entry statistics block emitted for one dimension with a nonempty
finite-lifespan list (`vectorize.py` lines 51-64, in source order):
count, mean, std, median, IQR, max, range, entropy, p10, p25, p75, p90. -/
noncomputable def statBlock (ls : List ℚ) : List ℝ :=
  [ ((ls.length : ℚ) : ℝ),
    ((npMean ls : ℚ) : ℝ),
    npStd ls,
    ((npMedian ls : ℚ) : ℝ),
    ((npPercentile ls 75 - npPercentile ls 25 : ℚ) : ℝ),
    ((npMax ls : ℚ) : ℝ),
    ((npMax ls - npMin ls : ℚ) : ℝ),
    lifespanEntropy ls,
    ((npPercentile ls 10 : ℚ) : ℝ),
    ((npPercentile ls 25 : ℚ) : ℝ),
    ((npPercentile ls 75 : ℚ) : ℝ),
    ((npPercentile ls 90 : ℚ) : ℝ) ]

/-- The three tracked dimensions of the vectorizer (`for dim in ["H0", "H1",
"H2"]`). -/
def trackedDims : List String := ["H0", "H1", "H2"]

/-- The loop body of `persistence_statistics` for one tracked dimension:
12 zeros when the diagram is missing/empty or has no finite lifespans,
`statBlock` of the finite lifespans otherwise. -/
noncomputable def dimFeatures (diagrams : List (String × List PPair))
    (dim : String) : List ℝ :=
  let dgm := dictGetD diagrams dim []
  if dgm.length = 0 then List.replicate FEATURES_PER_DIM (0 : ℝ)
  else
    let ls := lifespansOf dgm
    if ls.length = 0 then List.replicate FEATURES_PER_DIM (0 : ℝ)
    else statBlock ls

/-- Embeds `persistence_statistics`: the concatenation of the per-dimension
feature blocks over H0, H1, H2. -/
noncomputable def persistenceStatistics (diagrams : List (String × List PPair)) :
    List ℝ :=
  (trackedDims.map (dimFeatures diagrams)).flatten

/-- The block of the output vector belonging to tracked dimension `k`
(`k = 0, 1, 2`): twelve consecutive entries. -/
noncomputable def dimBlock (diagrams : List (String × List PPair)) (k : ℕ) :
    List ℝ :=
  ((persistenceStatistics diagrams).drop (FEATURES_PER_DIM * k)).take
    FEATURES_PER_DIM

/-! ## Persistence engine (`persistence.py`, `compute_persistence`) -/

/-- The per-dimension statistics dict built by `compute_persistence`
(lines 66-81): with at least one finite lifespan it holds, in source order,
count, mean, std, median, max, IQR and entropy of the lifespans; otherwise it
is the single-entry dict with count 0. -/
noncomputable def mkStatsPairs (ls : List ℚ) : List (String × ℝ) :=
  if 0 < ls.length then
    [ ("count", ((ls.length : ℚ) : ℝ)),
      ("mean_lifespan", ((npMean ls : ℚ) : ℝ)),
      ("std_lifespan", npStd ls),
      ("median_lifespan", ((npMedian ls : ℚ) : ℝ)),
      ("max_lifespan", ((npMax ls : ℚ) : ℝ)),
      ("iqr_lifespan", ((npPercentile ls 75 - npPercentile ls 25 : ℚ) : ℝ)),
      ("entropy", lifespanEntropy ls) ]
  else [("count", (0 : ℝ))]

/-- The key `f"H{dim}"`. -/
def hKey (dim : ℕ) : String := "H" ++ toString dim

/-- The result dict of `compute_persistence`: diagrams and statistics per
dimension `H0 .. HmaxDim` (entry `d` of each list is keyed `hKey d`) plus the
point count. -/
structure PResult where
  diagrams : List (String × List PPair)
  stats : List (String × List (String × ℝ))
  numPoints : ℕ

/-- Embeds the post-`ripser` body of `compute_persistence` (lines 51-87):
`ripserDgms` is the external solver's `result["dgms"]` list, indexed by
dimension.  For each `dim` in `range(max_dim+1)` the diagram is stored as is
and the statistics dict is built from its finite lifespans.  The function is
total: the source body contains no `raise`. -/
noncomputable def computePersistencePost (ripserDgms : List (List PPair))
    (maxDim : ℕ) (n : ℕ) : PResult where
  diagrams := (List.range (maxDim + 1)).map fun d => (hKey d, ripserDgms.getD d [])
  stats := (List.range (maxDim + 1)).map fun d =>
    (hKey d, mkStatsPairs (lifespansOf (ripserDgms.getD d [])))
  numPoints := n

/-- Observable outcome of running a Python function that could in principle
raise: either a normal return or a raised exception (identified by the
exception class name). -/
inductive POutcome (α : Type) where
  | ok (r : α)
  | raised (errName : String)

/-- Running `compute_persistence` (given the external solver output) always
returns normally: the function body contains no `raise` statement. -/
noncomputable def computePersistenceRun (ripserDgms : List (List PPair))
    (maxDim : ℕ) (n : ℕ) : POutcome PResult :=
  POutcome.ok (computePersistencePost ripserDgms maxDim n)

/-! ## Scale strategy (`persistence.py`, `compute_persistence_scaled`) -/

/-- An abstract distance matrix: its size `n` (= `shape[0]`) and entries. -/
structure DistMatrix where
  n : ℕ
  entry : ℕ → ℕ → ℚ

/-- Keyword arguments passed to the external `ripser` call by
`compute_persistence`: `maxdim`, optional `thresh`, optional `n_perm`. -/
structure RipsKwargs where
  maxdim : ℕ
  thresh : Option ℚ
  nPerm : Option ℕ

/-- Oracle standing for the external `ripser` solver: given the distance
matrix and keyword arguments it returns `result["dgms"]`. -/
def RipserOracle : Type := DistMatrix → RipsKwargs → List (List PPair)

/-- Embeds `compute_persistence` on a distance matrix: one external `ripser`
call with the given kwargs, then the pure post-processing. -/
noncomputable def computePersistenceM (σ : RipserOracle) (m : DistMatrix)
    (maxDim : ℕ) (threshold : Option ℚ) (nPerm : Option ℕ) : PResult :=
  computePersistencePost (σ m ⟨maxDim, threshold, nPerm⟩) maxDim m.n

/-- Oracle standing for the external GUDHI sparse-Rips pipeline in
`_gudhi_sparse_persistence`: `RipsComplex(distance_matrix=m, sparse=slack)`,
`create_simplex_tree(max_dimension=maxDimension)`, persistence; returns the
intervals per homology dimension. -/
def GudhiOracle : Type := DistMatrix → ℚ → ℕ → List (List PPair)

/-- The per-dimension branch of `_gudhi_sparse_persistence` (lines 150-178):
empty interval list gives an empty diagram and a count-0 stats dict, else the
same statistics layout as `compute_persistence`. -/
noncomputable def gudhiDimEntry (intervals : List PPair) :
    (List PPair × List (String × ℝ)) :=
  if intervals.length = 0 then ([], [("count", (0 : ℝ))])
  else (intervals, mkStatsPairs (lifespansOf intervals))

/-- Embeds `_gudhi_sparse_persistence`: the GUDHI oracle is called with
`sparse = slack` and `max_dimension = max_dim + 1`, and each dimension in
`range(max_dim+1)` is post-processed by `gudhiDimEntry`. -/
noncomputable def gudhiSparsePersistence (g : GudhiOracle) (m : DistMatrix)
    (maxDim : ℕ) (slack : ℚ) : PResult where
  diagrams := (List.range (maxDim + 1)).map fun d =>
    (hKey d, (gudhiDimEntry ((g m slack (maxDim + 1)).getD d [])).1)
  stats := (List.range (maxDim + 1)).map fun d =>
    (hKey d, (gudhiDimEntry ((g m slack (maxDim + 1)).getD d [])).2)
  numPoints := m.n

/-- The per-dimension statistics dict of a `compute_persistence` result as
read by `_multi_subsample_persistence`: either the count-0 dict or the full
dict.  Field values model the Python floats of one subsample run (whose
random subsample and `ripser` call are external). -/
inductive SubStats where
  | countOnly
  | full (count : ℕ) (mean std median mx iqr entropy : ℚ)

/-- The `"count"` entry of a per-dimension statistics dict. -/
def SubStats.count : SubStats → ℕ
  | .countOnly => 0
  | .full c _ _ _ _ _ _ => c

/-- The `"mean_lifespan"` entry (read only on dicts with positive count). -/
def SubStats.meanLs : SubStats → ℚ
  | .countOnly => 0
  | .full _ mean _ _ _ _ _ => mean

/-- The `"std_lifespan"` entry (read only on dicts with positive count). -/
def SubStats.stdLs : SubStats → ℚ
  | .countOnly => 0
  | .full _ _ std _ _ _ _ => std

/-- The `"median_lifespan"` entry (read only on dicts with positive count). -/
def SubStats.medianLs : SubStats → ℚ
  | .countOnly => 0
  | .full _ _ _ median _ _ _ => median

/-- The `"max_lifespan"` entry (read only on dicts with positive count). -/
def SubStats.maxLs : SubStats → ℚ
  | .countOnly => 0
  | .full _ _ _ _ mx _ _ => mx

/-- The `"iqr_lifespan"` entry (read only on dicts with positive count). -/
def SubStats.iqrLs : SubStats → ℚ
  | .countOnly => 0
  | .full _ _ _ _ _ iqr _ => iqr

/-- The `"entropy"` entry (read only on dicts with positive count). -/
def SubStats.entropyLs : SubStats → ℚ
  | .countOnly => 0
  | .full _ _ _ _ _ _ entropy => entropy

/-- Aggregated per-dimension statistics produced by
`_multi_subsample_persistence` (lines 220-236): either averaged fields plus
the subsampling parameters, or the count-0 dict. -/
inductive AggStats where
  | countOnly
  | full (count : ℤ) (mean std median mx iqr entropy : ℚ)
      (numSubsamples subsampleSize : ℕ)

/-- The result dict of `_multi_subsample_persistence`: per-dimension diagrams
(always empty) and aggregated statistics, the point count, and the
`"method": "multi_subsample"` marker. -/
structure MultiResult where
  diagrams : List (String × List PPair)
  stats : List (String × AggStats)
  numPoints : ℕ
  method : String

/-- The per-dimension list of subsample statistics kept by
`_multi_subsample_persistence`: of the `numSubsamples` subsample results,
those with positive count (`if result["stats"][key]["count"] > 0`). -/
def keptSubStats (sub : ℕ → ℕ → SubStats) (numSubsamples d : ℕ) :
    List SubStats :=
  ((List.range numSubsamples).map fun i => sub i d).filter fun s => 0 < s.count

/-- Embeds `_multi_subsample_persistence`.  `sub i d` stands for
`compute_persistence(sub_matrix_i, max_dim, threshold=0.8)["stats"][f"H{d}"]`,
the statistics of the `i`-th random subsample (drawing the subsample and the
`ripser` call are external); subsamples have size `min(subsampleSize, n)`.
Per dimension, the subsample stats with positive count are kept; each kept
field is then aggregated: the count as `int(np.mean(...))` (truncation of the
average), `max_lifespan` as `np.max(...)`, and every other field as
`np.mean(...)`; diagrams are left empty. -/
def multiSubsamplePersistence (sub : ℕ → ℕ → SubStats) (n : ℕ) (maxDim : ℕ)
    (subsampleSize numSubsamples : ℕ) : MultiResult where
  diagrams := (List.range (maxDim + 1)).map fun d => (hKey d, ([] : List PPair))
  stats := (List.range (maxDim + 1)).map fun d =>
    let subStats := keptSubStats sub numSubsamples d
    if 0 < subStats.length then
      (hKey d, AggStats.full
        ⌊npMean (subStats.map fun s => (s.count : ℚ))⌋
        (npMean (subStats.map SubStats.meanLs))
        (npMean (subStats.map SubStats.stdLs))
        (npMean (subStats.map SubStats.medianLs))
        (npMax (subStats.map SubStats.maxLs))
        (npMean (subStats.map SubStats.iqrLs))
        (npMean (subStats.map SubStats.entropyLs))
        numSubsamples subsampleSize)
    else (hKey d, AggStats.countOnly)
  numPoints := n
  method := "multi_subsample"

/-- Return value of `compute_persistence_scaled`: the first three branches
return a `compute_persistence`-shaped dict, the last the multi-subsample
shape. -/
inductive ScaledOut where
  | std (r : PResult)
  | multi (r : MultiResult)

/-- Embeds `compute_persistence_scaled` (lines 109-134).  The branch is
selected purely from `n = distance_matrix.shape[0]`:
`n ≤ 3000` — one exact call at threshold 0.8 up to `maxDim`;
`n ≤ 10000` — dims 0-1 at threshold 0.8, plus a dims 0-2 run at threshold 0.5
with greedy-permutation subsampling `n_perm = min(n, 2000)` whose `H2`
diagram and stats are merged into the first result (Python dict assignment of
the fresh key `"H2"` appends it);
`n ≤ 50000` — GUDHI sparse Rips with slack 0.3;
otherwise — multi-subsampling with subsample size 2000 and 20 subsamples. -/
noncomputable def computePersistenceScaled (σ : RipserOracle) (g : GudhiOracle)
    (sub : ℕ → ℕ → SubStats) (m : DistMatrix) (maxDim : ℕ) : ScaledOut :=
  let n := m.n
  if n ≤ 3000 then
    ScaledOut.std (computePersistenceM σ m maxDim (some (8 / 10)) none)
  else if n ≤ 10000 then
    let resultH01 := computePersistenceM σ m 1 (some (8 / 10)) none
    let resultH2 := computePersistenceM σ m 2 (some (5 / 10)) (some (min n 2000))
    ScaledOut.std
      { diagrams := resultH01.diagrams ++ [("H2", (resultH2.diagrams.getD 2 ("", [])).2)]
        stats := resultH01.stats ++ [("H2", (resultH2.stats.getD 2 ("", [])).2)]
        numPoints := resultH01.numPoints }
  else if n ≤ 50000 then
    ScaledOut.std (gudhiSparsePersistence g m maxDim (3 / 10))
  else
    ScaledOut.multi (multiSubsamplePersistence sub n maxDim 2000 20)

/-! ## Floor-plan layout analysis (`layout.py`, `analyze_floor_plan_topology`) -/

/-- A furniture record: position plus optional footprint
(`item.get("width", 2.0)`, `item.get("depth", 2.0)`). -/
structure Furniture where
  x : ℚ
  y : ℚ
  width : Option ℚ
  depth : Option ℚ

/-- Embeds the point-cloud construction (`layout.py` lines 49-63): each
furniture item contributes its center and its four corners. -/
def furniturePoints (items : List Furniture) : List (ℚ × ℚ) :=
  items.flatMap fun it =>
    let w := it.width.getD 2
    let d := it.depth.getD 2
    [ (it.x, it.y),
      (it.x - w / 2, it.y - d / 2),
      (it.x + w / 2, it.y - d / 2),
      (it.x - w / 2, it.y + d / 2),
      (it.x + w / 2, it.y + d / 2) ]

/-- Embeds `_polygon_area`: the shoelace formula, zero for fewer than three
vertices. -/
def polygonArea (vertices : List (ℚ × ℚ)) : ℚ :=
  let n := vertices.length
  if n < 3 then 0
  else
    |((List.range n).map fun i =>
        let vi := vertices.getD i (0, 0)
        let vj := vertices.getD ((i + 1) % n) (0, 0)
        vi.1 * vj.2 - vj.1 * vi.2).sum| / 2

/-- One detected dead space (`layout.py` lines 98-104); the radii are square
roots of the alpha-complex filtration values. -/
structure DeadSpace where
  birthRadius : ℝ
  deathRadius : ℝ
  persistence : ℝ
  approxDiameterFt : ℝ
  severity : String

/-- The response dict of `analyze_floor_plan_topology`. -/
structure LayoutResult where
  deadSpaces : List DeadSpace
  coverageScore : ℚ
  connectivityScore : ℚ
  diagramH0 : List PPair
  diagramH1 : List PPair
  numFurniturePoints : ℕ

/-- Oracle standing for the external GUDHI alpha-complex pipeline
(`AlphaComplex` / `create_simplex_tree` / `compute_persistence`): maps the
point cloud to the H0 and H1 persistence intervals. -/
def AlphaOracle : Type := List (ℚ × ℚ) → List PPair × List PPair

/-- Embeds `analyze_floor_plan_topology`: with fewer than 4 points it
returns the empty analysis (no dead spaces, both scores 0, empty diagrams) —
there is no `raise` in the function; otherwise it extracts dead spaces from
H1 features with finite death and squared persistence above
`dead_space_threshold_ft ** 2`, computes the coverage score from the polygon
area, and the connectivity score `1 / (1 + #long-lived H0 features)`. -/
noncomputable def analyzeFloorPlanTopology (g : AlphaOracle)
    (furniture : List Furniture) (roomBoundary : List (ℚ × ℚ))
    (deadSpaceThresholdFt : ℚ := 6) (connectivityThresholdFt : ℚ := 3) :
    LayoutResult :=
  let points := furniturePoints furniture
  if points.length < 4 then
    { deadSpaces := [], coverageScore := 0, connectivityScore := 0,
      diagramH0 := [], diagramH1 := [], numFurniturePoints := points.length }
  else
    let h0 := (g points).1
    let h1 := (g points).2
    let alphaThreshold := deadSpaceThresholdFt ^ 2
    let deadSpaces : List DeadSpace := h1.filterMap fun bd =>
      match bd.2 with
      | none => none
      | some death =>
          let persistence := death - bd.1
          if alphaThreshold < persistence then
            some { birthRadius := Real.sqrt (bd.1 : ℝ)
                   deathRadius := Real.sqrt (death : ℝ)
                   persistence := Real.sqrt (persistence : ℝ)
                   approxDiameterFt := 2 * Real.sqrt (death : ℝ)
                   severity :=
                     if alphaThreshold * 2 < persistence then "high" else "medium" }
          else none
    let roomArea := polygonArea roomBoundary
    let coveredArea := (furniture.map fun it =>
      it.width.getD 2 * it.depth.getD 2).sum
    let coverageScore := if 0 < roomArea then min (coveredArea / roomArea) 1 else 0
    let connThresholdSq := connectivityThresholdFt ^ 2
    let longLivedH0 := ((lifespansOf h0).filter fun ls => connThresholdSq < ls).length
    let connectivityScore := 1 / (1 + (longLivedH0 : ℚ))
    { deadSpaces := deadSpaces, coverageScore := coverageScore,
      connectivityScore := connectivityScore,
      diagramH0 := h0, diagramH1 := h1, numFurniturePoints := points.length }

/-- Running `analyze_floor_plan_topology` always returns normally: the
function contains no `raise` statement (in particular none for degenerate
inputs). -/
noncomputable def analyzeFloorPlanRun (g : AlphaOracle)
    (furniture : List Furniture) (roomBoundary : List (ℚ × ℚ))
    (deadSpaceThresholdFt connectivityThresholdFt : ℚ) :
    POutcome LayoutResult :=
  POutcome.ok (analyzeFloorPlanTopology g furniture roomBoundary
    deadSpaceThresholdFt connectivityThresholdFt)

/-! ## Cross-channel anomaly detection (`timeseries.py`, `detect_anomalies_tada`) -/

/-- A diagram point over the reals (the correlation-window pipeline works in
float arithmetic that includes square roots). -/
abbrev PPairR : Type := ℝ × Option ℝ

/-- Finite lifespans of a real-valued diagram. -/
def lifespansR (dgm : List PPairR) : List ℝ :=
  dgm.filterMap fun p => p.2.map fun death => death - p.1

/-- `np.mean` over the reals. -/
noncomputable def npMeanR (l : List ℝ) : ℝ := l.sum / l.length

/-- `np.std` (population) over the reals. -/
noncomputable def npStdR (l : List ℝ) : ℝ :=
  Real.sqrt ((l.map fun x => (x - npMeanR l) ^ 2).sum / l.length)

/-- `np.max` over the reals (0 on the empty list, which is guarded). -/
noncomputable def npMaxR (l : List ℝ) : ℝ := (l.max?).getD 0

/-- `len(range(0, stop, step))` for Python `range`: `⌈stop/step⌉` (0 when
`stop ≤ 0`; natural subtraction in callers supplies the clamping). -/
def pyRangeLen (stop step : ℕ) : ℕ := (stop + step - 1) / step

/-- `T = min(len(v) for v in booking_channels.values())` — evaluated only
after the ≥2-channels guard, so the dict is nonempty there. -/
def tadaT (channels : List (String × List ℚ)) : ℕ :=
  ((channels.map fun c => c.2.length).min?).getD 0

/-- Pearson-correlation distance matrix of one sliding window
(`np.corrcoef(window.T)` then `1 - |corr|` with zero diagonal), between
channels `j` and `k` on rows `start .. start + ws - 1` of the stacked data. -/
noncomputable def windowCorrDist (channels : List (String × List ℚ))
    (ws start : ℕ) : ℕ → ℕ → ℝ := fun j k =>
  if j = k then 0
  else
    let colv : ℕ → List ℚ := fun c =>
      (List.range ws).map fun t => ((channels.getD c ("", [])).2).getD (start + t) 0
    let xs := colv j
    let ys := colv k
    let mx := npMean xs
    let my := npMean ys
    let cov : ℝ := ((List.range ws).map fun t =>
      ((xs.getD t 0 - mx : ℚ) : ℝ) * ((ys.getD t 0 - my : ℚ) : ℝ)).sum
    let corr := cov / (Real.sqrt ((xs.map fun v => ((v - mx : ℚ) : ℝ) ^ 2).sum) *
      Real.sqrt ((ys.map fun v => ((v - my : ℚ) : ℝ) ^ 2).sum))
    1 - |corr|

/-- One flagged anomaly (`timeseries.py` lines 286-296). -/
structure TadaAnomaly where
  position : ℕ
  mahalanobisScore : ℝ
  severity : String
  meanLifespan : ℝ
  stdLifespan : ℝ
  maxLifespan : ℝ
  numComponents : ℤ

/-- Oracle standing for the external `ripser(dist, maxdim=0,
distance_matrix=True)` call of the anomaly detector: maps a window's
correlation-distance matrix to the H0 diagram. -/
def TadaRipserOracle : Type := (ℕ → ℕ → ℝ) → List PPairR

/-- The window starts of the anomaly detector:
`range(0, T - window_size, step)`. -/
def tadaStarts (channels : List (String × List ℚ)) (windowSize step : ℕ) :
    List ℕ :=
  (List.range (pyRangeLen (tadaT channels - windowSize) step)).map (· * step)

/-- The per-window 4-feature vectors (`timeseries.py` lines 238-261):
mean/std/max of the finite H0 lifespans and their count, or four zeros when
no finite lifespan exists. -/
noncomputable def tadaTopoFeatures (rip : TadaRipserOracle)
    (channels : List (String × List ℚ)) (windowSize step : ℕ) :
    List (List ℝ) :=
  (tadaStarts channels windowSize step).map fun start =>
    let ls := lifespansR (rip (windowCorrDist channels windowSize start))
    if 0 < ls.length then [npMeanR ls, npStdR ls, npMaxR ls, (ls.length : ℝ)]
    else [0, 0, 0, 0]

open Classical in
/-- The Gaussian-fit-and-flag phase (`timeseries.py` lines 267-298):
columnwise mean, `np.cov` (with its default one-delta degrees of freedom)
plus the `1e-6` ridge, and a flag for every window whose Mahalanobis distance
exceeds 3 (severity "high" above 5, else "medium"). -/
noncomputable def tadaFit (topoFeatures : List (List ℝ))
    (positions : List ℕ) : List TadaAnomaly :=
  let N := topoFeatures.length
  let col : Fin 4 → ℕ → ℝ := fun j i => (topoFeatures.getD i []).getD (j : ℕ) 0
  let μ : Fin 4 → ℝ := fun j => ((List.range N).map fun i => col j i).sum / N
  let cov : Matrix (Fin 4) (Fin 4) ℝ := fun j k =>
    (((List.range N).map fun i => (col j i - μ j) * (col k i - μ k)).sum /
      ((N : ℝ) - 1)) + (if j = k then ((epsSix : ℚ) : ℝ) else 0)
  let covInv := cov⁻¹
  (List.range N).filterMap fun i =>
    let diff : Fin 4 → ℝ := fun j => col j i - μ j
    let maha := Real.sqrt (∑ j : Fin 4, ∑ k : Fin 4,
      diff j * covInv j k * diff k)
    if 3 < maha then
      some { position := positions.getD i 0
             mahalanobisScore := maha
             severity := if 5 < maha then "high" else "medium"
             meanLifespan := col 0 i
             stdLifespan := col 1 i
             maxLifespan := col 2 i
             numComponents := ⌊col 3 i⌋ }
    else none

/-- Embeds `detect_anomalies_tada`: returns `[]` (raising nothing) when fewer
than 2 channels are supplied; otherwise slides windows at starts
`range(0, T - window_size, step)`, extracts a 4-feature vector per window via
the external `ripser` oracle, returns `[]` when fewer than 10 feature vectors
were produced, and otherwise runs the Gaussian fit and flags anomalies. -/
noncomputable def detectAnomaliesTada (rip : TadaRipserOracle)
    (channels : List (String × List ℚ)) (windowSize : ℕ := 14) (step : ℕ := 1) :
    List TadaAnomaly :=
  if channels.length < 2 then []
  else
    let topoFeatures := tadaTopoFeatures rip channels windowSize step
    let positions := (tadaStarts channels windowSize step).map (· + windowSize / 2)
    if topoFeatures.length < 10 then []
    else tadaFit topoFeatures positions

/-! ## Relational simplicial complex (`simplicial.py`) -/

/-- A typed entity identifier.  The source forms the strings
`f"venue:{id}"`, `f"event:{id}"`, `f"timeslot:{id}"`, `f"vendor:{id}"`; the
constructor plays the role of the type tag, guaranteeing cross-type
uniqueness exactly as the tag does. -/
inductive Entity (α : Type) where
  | venue (id : α)
  | event (id : α)
  | timeslot (id : α)
  | vendor (id : α)
deriving DecidableEq

/-- Rank of the type tag under lexicographic string comparison of the tagged
names: `event:` < `timeslot:` < `vendor:` < `venue:`. -/
def Entity.tagRank : Entity α → ℕ
  | .event _ => 0
  | .timeslot _ => 1
  | .vendor _ => 2
  | .venue _ => 3

/-- The raw identifier of an entity. -/
def Entity.idOf : Entity α → α
  | .venue i => i
  | .event i => i
  | .timeslot i => i
  | .vendor i => i

/-- Sort key mirroring Python's lexicographic order on the tagged strings:
first by tag, then by identifier. -/
def Entity.sortKey (e : Entity α) : ℕ ×ₗ α := toLex (e.tagRank, e.idOf)

theorem Entity.sortKey_injective : Function.Injective (Entity.sortKey (α := α)) := by
  intro a b h
  cases a <;> cases b <;>
    simp [Entity.sortKey, Entity.tagRank, Entity.idOf, Prod.ext_iff] at h <;>
    simp [h]

instance [LinearOrder α] : LinearOrder (Entity α) :=
  LinearOrder.lift' Entity.sortKey Entity.sortKey_injective

/-- A booking record: `venue_id`, `event_id`, `timeslot_id` (the source reads
it with `.get('timeslot_id', 'default')`, so a value is always available) and
the vendor list (`.get('vendor_ids', [])`). -/
structure Booking (α : Type) where
  venueId : α
  eventId : α
  timeslotId : α
  vendorIds : List α

/-- `all_entities = [venue, event, timeslot] + vendors` for one booking. -/
def allEntities (b : Booking α) : List (Entity α) :=
  Entity.venue b.venueId :: Entity.event b.eventId ::
    Entity.timeslot b.timeslotId :: b.vendorIds.map Entity.vendor

/-- The entity set accumulated over all bookings (a Python `set`, modelled as
a duplicate-free list). -/
def entitiesOf [DecidableEq α] (bookings : List (Booking α)) : List (Entity α) :=
  (bookings.flatMap allEntities).dedup

/-- Canonical form of a simplex: `tuple(sorted(s))`. -/
def canonSimplex [LinearOrder α] (s : List (Entity α)) : List (Entity α) :=
  s.insertionSort (· ≤ ·)

/-- The simplices contributed by one booking at dimension `k` before
canonicalization: `itertools.combinations(all_entities, k+1)` for
`k = 1, 2`, and for `k = 3` only when the booking has at least 4 entities
(`simplicial.py` lines 54-65). -/
def rawSimplicesAt (b : Booking α) (k : ℕ) : List (List (Entity α)) :=
  let all := allEntities b
  if k = 1 then all.sublistsLen 2
  else if k = 2 then all.sublistsLen 3
  else if k = 3 then (if 4 ≤ all.length then all.sublistsLen 4 else [])
  else []

/-- Embeds the complex built by `build_booking_simplicial_complex`:
dimension 0 holds one singleton per entity, the higher dimensions hold the
per-booking combinations in canonical sorted-tuple form, deduplicated. -/
def simplicesByDim [DecidableEq α] [LinearOrder α]
    (bookings : List (Booking α)) : ℕ → List (List (Entity α)) := fun k =>
  if k = 0 then (entitiesOf bookings).map fun e => [e]
  else ((bookings.flatMap fun b => rawSimplicesAt b k).map canonSimplex).dedup

/-- The largest dimension key present in the source's `simplices_by_dim`
dict: 3 when some booking has ≥ 4 entities, else 2 when any booking exists,
else 0 (only the always-assigned dimension-0 key). -/
def maxDimKey (bookings : List (Booking α)) : ℕ :=
  if bookings.any fun b => 4 ≤ (allEntities b).length then 3
  else if bookings.isEmpty then 0 else 2

/-! ### Union-find (`_compute_betti_numbers`, dimension 0)

The Python `find` runs `while parent[x] != x: parent[x] = parent[parent[x]];
x = parent[x]`.  The loop is embedded with explicit state passing and a fuel
bound; the β₀ computation supplies fuel `len(vertices) + 2`, which the
correctness proofs below show is never exhausted (a parent chain visits
pairwise distinct vertices). -/

/-- One `find(x)` with path halving: returns the root and the updated parent
map. -/
def ufFindAux [DecidableEq V] : ℕ → (V → V) → V → V × (V → V)
  | 0, p, x => (x, p)
  | fuel + 1, p, x =>
      if p x = x then (x, p)
      else
        let p1 := Function.update p x (p (p x))
        ufFindAux fuel p1 (p (p x))

/-- `union(a, b)`: find both roots (the second find sees the state left by
the first) and re-point root `ra` to root `rb` when they differ. -/
def ufUnion [DecidableEq V] (fuel : ℕ) (p : V → V) (a b : V) : V → V :=
  let fa := ufFindAux fuel p a
  let fb := ufFindAux fuel fa.2 b
  if fa.1 = fb.1 then fb.2 else Function.update fb.2 fa.1 fb.1

/-- The edge loop: `for edge in edges: if len(edge) == 2: union(edge[0],
edge[1])`. -/
def ufProcessEdges [DecidableEq V] (fuel : ℕ) (p : V → V)
    (edges : List (List V)) : V → V :=
  edges.foldl (fun q e => match e with
    | [a, b] => ufUnion fuel q a b
    | _ => q) p

/-- `set(find(v) for v in vertices)` threading the mutated parent map:
collect the root of every vertex in order. -/
def ufCollectRoots [DecidableEq V] (fuel : ℕ) :
    (V → V) → List V → List V × (V → V)
  | p, [] => ([], p)
  | p, v :: vs =>
      let fv := ufFindAux fuel p v
      let rest := ufCollectRoots fuel fv.2 vs
      (fv.1 :: rest.1, rest.2)

/-- The vertex set of the 1-skeleton as read by the source:
`{s[0] for s in simplices_by_dim[0]}`. -/
def vertsOf [DecidableEq V] (S : ℕ → List (List V)) : List V :=
  ((S 0).filterMap List.head?).dedup

/-- `β₀` as computed by the source: union-find over the dimension-0 vertices
and the dimension-1 edges, then the number of distinct roots. -/
def beta0UnionFind [DecidableEq V] (vertices : List V)
    (edges : List (List V)) : ℕ :=
  let fuel := vertices.length + 2
  let pFinal := ufProcessEdges fuel (fun v => v) edges
  ((ufCollectRoots fuel pFinal vertices).1).dedup.length

/-- The Betti value reported for dimension `k` (`simplicial.py` lines
168-209): 0 when no `k`-simplices exist; for `k = 0` the union-find
component count; for `k ≥ 1` the rank-formula estimate
`max(0, n_k - n_(k-1) - n_(k+1))`. -/
def bettiVal [DecidableEq V] (S : ℕ → List (List V)) (k : ℕ) : ℕ :=
  if (S k).isEmpty then 0
  else if k = 0 then beta0UnionFind (vertsOf S) (S 1)
  else
    (max 0 (((S k).length : ℤ) - ((S (k - 1)).length : ℤ) -
      ((S (k + 1)).length : ℤ))).toNat

/-- Embeds `_compute_betti_numbers`: the dict `beta_k ↦ value` for `k` in
`range(max_dim + 1)`, keyed here by `k`. -/
def computeBettiNumbers [DecidableEq V] (S : ℕ → List (List V))
    (maxdim : ℕ) : List (ℕ × ℕ) :=
  (List.range (maxdim + 1)).map fun k => (k, bettiVal S k)

/-- The Betti numbers of the booking complex as returned by
`build_booking_simplicial_complex`. -/
def bookingBetti [DecidableEq α] [LinearOrder α]
    (bookings : List (Booking α)) : List (ℕ × ℕ) :=
  computeBettiNumbers (simplicesByDim bookings) (maxDimKey bookings)

/-- The per-dimension simplex count of the booking complex (the `counts`
entry of the response). -/
def bookingCount [DecidableEq α] [LinearOrder α]
    (bookings : List (Booking α)) (k : ℕ) : ℕ :=
  (simplicesByDim bookings k).length

/-! ### Semantic layer for union-find correctness -/

/-- `r` is a union-find root: its parent is itself. -/
def IsRoot {V : Type} (p : V → V) (r : V) : Prop := p r = r

/-- The parent chain from `x` reaches root `r` in exactly `k` steps. -/
def ReachesIn {V : Type} (p : V → V) (x : V) (k : ℕ) (r : V) : Prop :=
  p^[k] x = r ∧ IsRoot p r

/-- The parent chain from `x` reaches root `r`. -/
def Reaches {V : Type} (p : V → V) (x r : V) : Prop := ∃ k, ReachesIn p x k r

/-- Well-formedness of a parent map over a vertex set: every non-root is a
vertex with a vertex parent, and every parent chain reaches a root. -/
def UFWF {V : Type} (verts : Finset V) (p : V → V) : Prop :=
  (∀ y, p y ≠ y → y ∈ verts ∧ p y ∈ verts) ∧ ∀ v, ∃ r, Reaches p v r

/-- Two elements lie in the same union-find class: their chains meet at a
common root. -/
def sameRoot {V : Type} (p : V → V) (u v : V) : Prop :=
  ∃ r, Reaches p u r ∧ Reaches p v r

/-- Adjacency induced by a list of edge simplices. -/
def edgeRel {V : Type} (edges : List (List V)) (u v : V) : Prop :=
  [u, v] ∈ edges ∨ [v, u] ∈ edges

/-- One union step on an equivalence relation: join the classes of `a` and
`b`. -/
def relJoin {V : Type} (R : V → V → Prop) (a b : V) (u v : V) : Prop :=
  R u v ∨ (R u a ∧ R b v) ∨ (R u b ∧ R a v)

open Classical in
/-- The number of connected components of the 1-skeleton (vertices plus
1-simplices): classes of the reflexive-symmetric-transitive closure of edge
adjacency, restricted to the vertex set. -/
noncomputable def numComponents1 {V : Type} [DecidableEq V]
    (S : ℕ → List (List V)) : ℕ :=
  ((vertsOf S).toFinset.image fun v =>
    (vertsOf S).toFinset.filter fun u => Relation.EqvGen (edgeRel (S 1)) v u).card

open Classical in
/-- The root of `x`'s chain (choice-based; unique under `UFWF`). -/
noncomputable def pRoot {V : Type} (p : V → V) (x : V) : V :=
  if h : ∃ r, Reaches p x r then h.choose else x

/-- The canonical sorted-tuple form of a vertex set. -/
def canonOfFinset [DecidableEq α] [LinearOrder α] (S : Finset (Entity α)) :
    List (Entity α) :=
  S.sort (· ≤ ·)

/-- A vertex set `S` is present as a simplex of the booking complex when its
canonical sorted tuple occurs at some dimension. -/
def presentSimplex [DecidableEq α] [LinearOrder α]
    (bookings : List (Booking α)) (S : Finset (Entity α)) : Prop :=
  ∃ k, canonOfFinset S ∈ simplicesByDim bookings k

/-! ## Concrete instances used by counterexamples and witnesses -/

/-- A booking with two vendors: its entity set has five members. -/
def booking5 : Booking ℕ := ⟨0, 1, 2, [3, 4]⟩

/-- A single 4-way booking over four distinct entities. -/
def booking4 : Booking ℕ := ⟨0, 1, 2, [3]⟩

/-- A diagram input for the vectorizer: H0 has one finite feature, H1 is
absent, H2 has only an infinite feature. -/
def vecExample : List (String × List PPair) :=
  [("H0", [(0, some 1)]), ("H2", [(0, none)])]

/-- A `ripser` output whose H2 diagram is empty. -/
def c5Dgms : List (List PPair) := [[(0, some 1)], [], []]

/-- A diagram with finite lifespans 1 and 1000 (range 999, distinct from
every statistic the engine stores). -/
def c8Dgm : List PPair := [(0, some 1), (0, some 1000)]

/-- An alpha-complex oracle returning empty diagrams (never consulted on the
degenerate inputs of interest). -/
def alphaOracleEmpty : AlphaOracle := fun _ => ([], [])

/-- A `ripser` oracle for the anomaly detector returning an empty diagram. -/
def tadaRipEmpty : TadaRipserOracle := fun _ => []

/-- A `ripser` oracle returning empty diagram lists. -/
def ripserOracle0 : RipserOracle := fun _ _ => []

/-- A GUDHI sparse-Rips oracle returning empty interval lists. -/
def gudhiOracle0 : GudhiOracle := fun _ _ _ => []

/-- A subsample-statistics oracle where every subsample is empty. -/
def subOracle0 : ℕ → ℕ → SubStats := fun _ _ => SubStats.countOnly

/-- A 2-point distance matrix. -/
def mSmall : DistMatrix := ⟨2, fun _ _ => 0⟩

/-- A subsample oracle alternating between count 1 / max 1 and count 2 /
max 3: the average of the per-subsample maxima (2) differs from their
maximum (3), and the average count (1.5) is not an integer. -/
def subAlternating : ℕ → ℕ → SubStats := fun i _ =>
  SubStats.full (if i % 2 = 0 then 1 else 2) 1 1 1 (if i % 2 = 0 then 1 else 3) 1 1

/-- A subsample oracle where every subsample has count 1. -/
def subConst1 : ℕ → ℕ → SubStats := fun _ _ => SubStats.full 1 1 1 1 1 1 1

/-! ## Helper lemmas -/

/-- `getD` on a mapped range evaluates the function. -/
theorem getD_map_range {β : Type} (n j : ℕ) (f : ℕ → β) (d : β) (h : j < n) :
    (((List.range n).map f).getD j d) = f j := by
  simp [List.getD_eq_getElem?_getD, List.getElem?_map, List.getElem?_range h]

/-- Rational casts into the reals preserve disequality. -/
theorem qcast_ne {a b : ℚ} (h : a ≠ b) : (a : ℝ) ≠ (b : ℝ) :=
  fun hEq => h (Rat.cast_injective hEq)

/-- A sum of reals each at least `c` is at least `c` times the length. -/
theorem neg_const_mul_length_le_sum (l : List ℝ) (c : ℝ) (h : ∀ x ∈ l, c ≤ x) :
    c * l.length ≤ l.sum := by
  induction l with
  | nil => simp
  | cons a t ih =>
      have ha := h a (List.mem_cons_self a t)
      have ht := ih fun x hx => h x (List.mem_cons_of_mem a hx)
      simp only [List.sum_cons, List.length_cons]
      push_cast
      nlinarith

/-- The regularized Shannon entropy of a nonnegative list is at most
`90 · length`: every summand `-p·log(p+1e-10)` lies in `[-0, 90]` because
`log(1e-10) = -10·log 10 ≥ -90`. -/
theorem lifespanEntropy_le (l : List ℚ) (h : ∀ x ∈ l, 0 ≤ x) :
    lifespanEntropy l ≤ 90 * l.length := by
  have hεq : (0 : ℚ) < epsTen := by norm_num [epsTen]
  have hε : (0 : ℝ) < (epsTen : ℚ) := by exact_mod_cast hεq
  have hsum : (0 : ℚ) ≤ l.sum := List.sum_nonneg h
  have hlog : (-90 : ℝ) ≤ Real.log (epsTen : ℚ) := by
    have h10 : Real.log ((10 : ℝ) ^ (10 : ℕ)) = 10 * Real.log 10 := by
      rw [Real.log_pow]; push_cast; ring
    have hlog10 : Real.log 10 ≤ 9 := by
      have := Real.log_le_sub_one_of_pos (by norm_num : (0 : ℝ) < 10)
      linarith
    have hcast : (((epsTen : ℚ)) : ℝ) = ((10 : ℝ) ^ (10 : ℕ))⁻¹ := by
      norm_num [epsTen]
    rw [hcast, Real.log_inv, h10]
    nlinarith [Real.log_nonneg (by norm_num : (1 : ℝ) ≤ 10)]
  have hterm : ∀ y ∈ l.map (fun x =>
      ((x / (l.sum + epsTen) : ℚ) : ℝ) *
        Real.log (((x / (l.sum + epsTen) : ℚ) : ℝ) + (epsTen : ℚ))),
      (-90 : ℝ) ≤ y := by
    intro y hy
    rcases List.mem_map.mp hy with ⟨x, hx, rfl⟩
    have hx0 : (0 : ℚ) ≤ x := h x hx
    have hden : (0 : ℚ) < l.sum + epsTen := by linarith
    have hp0 : (0 : ℚ) ≤ x / (l.sum + epsTen) := div_nonneg hx0 hden.le
    have hxle : x ≤ l.sum := List.single_le_sum h x hx
    have hp1 : x / (l.sum + epsTen) ≤ 1 := by
      rw [div_le_one hden]; linarith
    have hp0R : (0 : ℝ) ≤ ((x / (l.sum + epsTen) : ℚ) : ℝ) := by exact_mod_cast hp0
    have hp1R : ((x / (l.sum + epsTen) : ℚ) : ℝ) ≤ 1 := by exact_mod_cast hp1
    set p : ℝ := ((x / (l.sum + epsTen) : ℚ) : ℝ) with hp
    have hlogmono : Real.log (epsTen : ℚ) ≤ Real.log (p + (epsTen : ℚ)) := by
      apply Real.log_le_log hε
      linarith
    rcases le_or_lt 0 (Real.log (p + (epsTen : ℚ))) with hpos | hneg
    · nlinarith
    · nlinarith
  have hbound := neg_const_mul_length_le_sum _ (-90) hterm
  rw [List.length_map] at hbound
  simp only [lifespanEntropy]
  linarith

/-- Each per-dimension vectorizer block has length 12. -/
theorem dimFeatures_length (diagrams : List (String × List PPair)) (dim : String) :
    (dimFeatures diagrams dim).length = FEATURES_PER_DIM := by
  simp only [dimFeatures]
  split_ifs <;> simp [statBlock, FEATURES_PER_DIM]

/-- The vectorizer output is the concatenation of the three blocks. -/
theorem persistenceStatistics_eq (diagrams : List (String × List PPair)) :
    persistenceStatistics diagrams =
      dimFeatures diagrams "H0" ++ (dimFeatures diagrams "H1" ++
        (dimFeatures diagrams "H2" ++ [])) := by
  simp [persistenceStatistics, trackedDims]

/-- The `k`-th 12-entry slice of the vectorizer output is the `k`-th
dimension's block. -/
theorem dimBlock_eq (diagrams : List (String × List PPair)) (k : ℕ)
    (h : k < NUM_DIMS) :
    dimBlock diagrams k = dimFeatures diagrams (trackedDims.getD k "") := by
  have h3 : k < 3 := by simpa [NUM_DIMS] using h
  have l0 := dimFeatures_length diagrams "H0"
  have l1 := dimFeatures_length diagrams "H1"
  have l2 := dimFeatures_length diagrams "H2"
  rw [FEATURES_PER_DIM] at l0 l1 l2
  interval_cases k
  · simp only [dimBlock, persistenceStatistics_eq, trackedDims, FEATURES_PER_DIM,
      Nat.mul_zero, List.drop_zero, List.getD]
    rw [List.take_left' l0]
    rfl
  · simp only [dimBlock, persistenceStatistics_eq, trackedDims, FEATURES_PER_DIM,
      Nat.mul_one]
    rw [List.drop_left' l0, List.take_left' l1]
    rfl
  · simp only [dimBlock, persistenceStatistics_eq, trackedDims, FEATURES_PER_DIM]
    rw [show (12 : ℕ) * 2 = 12 + 12 by norm_num, ← List.drop_drop]
    rw [List.drop_left' l0, List.drop_left' l1, List.take_left' (by simpa using l2)]
    rfl

/-- The finite lifespans of `c8Dgm` are 1 and 1000. -/
theorem lifespans_c8 : lifespansOf c8Dgm = [1, 1000] := by
  simp [lifespansOf, c8Dgm]

/-! ## Claim theorems -/

/-- C6: For every scalar time series of length n, delay τ ≥ 1 and embedding
dimension d ≥ 1, if `n - (d-1)·τ > 0` the delay embedding returns exactly
`n - (d-1)·τ` points in dimension d with point j having coordinate i equal to
`x (j + i·τ)`; otherwise it fails (the source raises a `ValueError` whose
message names the insufficient length, the spec's insufficient-length error
kind). -/
theorem takens_embedding_spec (ts : List ℚ) (τ d : ℕ) (hτ : 1 ≤ τ) (hd : 1 ≤ d) :
    ((d - 1) * τ < ts.length →
      ∃ pts, takensEmbedding ts τ d = Except.ok pts ∧
        pts.length = ts.length - (d - 1) * τ ∧
        ∀ j < ts.length - (d - 1) * τ,
          (pts.getD j []).length = d ∧
          ∀ i < d, (pts.getD j []).getD i 0 = ts.getD (j + i * τ) 0) ∧
    (ts.length ≤ (d - 1) * τ →
      takensEmbedding ts τ d = Except.error "Time series too short") := by
  constructor
  · intro h
    have hcond : ¬ ts.length ≤ (d - 1) * τ := Nat.not_le.mpr h
    refine ⟨(List.range (ts.length - (d - 1) * τ)).map
      (fun j => (List.range d).map fun i => ts.getD (i * τ + j) 0), ?_, by simp, ?_⟩
    · simp [takensEmbedding, hcond]
    · intro j hj
      rw [getD_map_range _ _ _ _ hj]
      constructor
      · simp
      · intro i hi
        rw [getD_map_range _ _ _ _ hi, Nat.add_comm]
  · intro h
    simp [takensEmbedding, h]

/-- C6 witness: the series `[1,2,3,4,5,6]` with delay 2 and dimension 2
embeds into 4 points. -/
theorem takens_embedding_spec_witness :
    ∃ pts, takensEmbedding [1, 2, 3, 4, 5, 6] 2 2 = Except.ok pts ∧
      pts.length = ([1, 2, 3, 4, 5, 6] : List ℚ).length - (2 - 1) * 2 ∧
      ∀ j < ([1, 2, 3, 4, 5, 6] : List ℚ).length - (2 - 1) * 2,
        (pts.getD j []).length = 2 ∧
        ∀ i < 2, (pts.getD j []).getD i 0 =
          ([1, 2, 3, 4, 5, 6] : List ℚ).getD (j + i * 2) 0 :=
  (takens_embedding_spec [1, 2, 3, 4, 5, 6] 2 2 (by decide) (by decide)).1 (by decide)

/-- C7: the vectorizer output always has length 36; a tracked dimension whose
diagram is missing/empty or has no finite lifespans contributes exactly 12
zeros; and a dimension with finite lifespans contributes, in order, count,
mean, std, median, IQR, max, range, entropy, p10, p25, p75, p90 of those
lifespans. -/
theorem vectorizer_vector_shape (diagrams : List (String × List PPair)) :
    (persistenceStatistics diagrams).length = TOTAL_FEATURES ∧
    (∀ k, k < NUM_DIMS →
      (dictGetD diagrams (trackedDims.getD k "") [] = [] ∨
        lifespansOf (dictGetD diagrams (trackedDims.getD k "") []) = []) →
      dimBlock diagrams k = List.replicate FEATURES_PER_DIM 0) ∧
    (∀ k, k < NUM_DIMS →
      lifespansOf (dictGetD diagrams (trackedDims.getD k "") []) ≠ [] →
      dimBlock diagrams k =
        statBlock (lifespansOf (dictGetD diagrams (trackedDims.getD k "") []))) ∧
    (∀ ls : List ℚ, statBlock ls =
      [ ((ls.length : ℚ) : ℝ), ((npMean ls : ℚ) : ℝ), npStd ls,
        ((npMedian ls : ℚ) : ℝ),
        ((npPercentile ls 75 - npPercentile ls 25 : ℚ) : ℝ),
        ((npMax ls : ℚ) : ℝ), ((npMax ls - npMin ls : ℚ) : ℝ),
        lifespanEntropy ls, ((npPercentile ls 10 : ℚ) : ℝ),
        ((npPercentile ls 25 : ℚ) : ℝ), ((npPercentile ls 75 : ℚ) : ℝ),
        ((npPercentile ls 90 : ℚ) : ℝ) ]) := by
  refine ⟨?_, ?_, ?_, fun ls => rfl⟩
  · rw [persistenceStatistics_eq]
    simp [dimFeatures_length, TOTAL_FEATURES, FEATURES_PER_DIM, NUM_DIMS]
  · intro k hk hcase
    rw [dimBlock_eq diagrams k hk]
    simp only [dimFeatures]
    rcases hcase with hempty | hnofin
    · rw [if_pos (by rw [hempty]; rfl)]
    · split_ifs with h1 h2
      · rfl
      · rfl
      · exact absurd (by simpa using hnofin) h2
  · intro k hk hne
    rw [dimBlock_eq diagrams k hk]
    simp only [dimFeatures]
    have hdgm : ¬ (dictGetD diagrams (trackedDims.getD k "") []).length = 0 := by
      intro h0
      rw [List.length_eq_zero] at h0
      rw [h0] at hne
      exact hne rfl
    rw [if_neg hdgm, if_neg (by simpa using hne)]

/-- C7 witness: on `vecExample` the vector has length 36, the H1 and H2
blocks are 12 zeros (missing diagram resp. no finite features), and the H0
block is the statistics block of its finite lifespans. -/
theorem vectorizer_vector_shape_witness :
    (persistenceStatistics vecExample).length = TOTAL_FEATURES ∧
    dimBlock vecExample 1 = List.replicate FEATURES_PER_DIM 0 ∧
    dimBlock vecExample 2 = List.replicate FEATURES_PER_DIM 0 ∧
    dimBlock vecExample 0 =
      statBlock (lifespansOf (dictGetD vecExample (trackedDims.getD 0 "") [])) :=
  ⟨(vectorizer_vector_shape vecExample).1,
   (vectorizer_vector_shape vecExample).2.1 1 (by norm_num [NUM_DIMS])
     (Or.inl (by rfl)),
   (vectorizer_vector_shape vecExample).2.1 2 (by norm_num [NUM_DIMS])
     (Or.inr (by rfl)),
   (vectorizer_vector_shape vecExample).2.2.1 0 (by norm_num [NUM_DIMS])
     (by simp [vecExample, dictGetD, lifespansOf, trackedDims])⟩

/-- C5 counterexample: on a `ripser` output whose H2 diagram is empty,
`compute_persistence` does not fail with `EmptyComplexError` (or anything
else); it returns normally with the count-0 statistics dict and an empty
diagram list for H2. -/
theorem compute_persistence_no_empty_complex_error :
    (∀ e, computePersistenceRun c5Dgms 2 3 ≠ POutcome.raised e) ∧
    (∃ r, computePersistenceRun c5Dgms 2 3 = POutcome.ok r ∧
      r.stats.getD 2 ("", []) = ("H2", [("count", 0)]) ∧
      r.diagrams.getD 2 ("", []) = ("H2", [])) := by
  constructor
  · intro e h
    exact POutcome.noConfusion h
  · refine ⟨computePersistencePost c5Dgms 2 3, rfl, ?_, ?_⟩
    · show ((List.range 3).map _).getD 2 _ = _
      rw [getD_map_range 3 2 _ _ (by norm_num)]
      have : lifespansOf (c5Dgms.getD 2 []) = [] := by decide
      rw [this]
      norm_num [mkStatsPairs]
      decide
    · show ((List.range 3).map _).getD 2 _ = _
      rw [getD_map_range 3 2 _ _ (by norm_num)]
      rfl

/-- C5 as amended: for every solver output, requested dimension `d ≤ maxDim`
with an empty diagram, the computation returns normally and reports the
count-0 statistics dict and the empty diagram for that dimension — an empty
dimension is not an error. -/
theorem compute_persistence_empty_dim_count_zero (dgms : List (List PPair))
    (maxDim n d : ℕ) (hd : d ≤ maxDim) (hempty : dgms.getD d [] = []) :
    computePersistenceRun dgms maxDim n =
      POutcome.ok (computePersistencePost dgms maxDim n) ∧
    (computePersistencePost dgms maxDim n).stats.getD d ("", []) =
      (hKey d, [("count", 0)]) ∧
    (computePersistencePost dgms maxDim n).diagrams.getD d ("", []) =
      (hKey d, []) := by
  refine ⟨rfl, ?_, ?_⟩
  · show ((List.range (maxDim + 1)).map _).getD d _ = _
    rw [getD_map_range _ _ _ _ (Nat.lt_succ_of_le hd), hempty]
    simp [mkStatsPairs, lifespansOf]
  · show ((List.range (maxDim + 1)).map _).getD d _ = _
    rw [getD_map_range _ _ _ _ (Nat.lt_succ_of_le hd), hempty]

/-- C5 witness: a run with an empty dimension-0 diagram returns normally
with count-0 statistics there. -/
theorem compute_persistence_empty_dim_count_zero_witness :
    computePersistenceRun [[], [(0, some 1)]] 1 7 =
      POutcome.ok (computePersistencePost [[], [(0, some 1)]] 1 7) ∧
    (computePersistencePost [[], [(0, some 1)]] 1 7).stats.getD 0 ("", []) =
      (hKey 0, [("count", 0)]) ∧
    (computePersistencePost [[], [(0, some 1)]] 1 7).diagrams.getD 0 ("", []) =
      (hKey 0, []) :=
  compute_persistence_empty_dim_count_zero [[], [(0, some 1)]] 1 7 0
    (by norm_num) (by decide)

/-- C8 counterexample: for the diagram with finite lifespans 1 and 1000 the
range of the lifespans is 999, yet no entry of the engine's statistics dict
equals 999 — the engine does not store a range statistic. -/
theorem engine_stats_missing_range :
    npMax (lifespansOf c8Dgm) - npMin (lifespansOf c8Dgm) = 999 ∧
    ∀ kv ∈ mkStatsPairs (lifespansOf c8Dgm), kv.2 ≠ ((999 : ℚ) : ℝ) := by
  rw [lifespans_c8]
  constructor
  · norm_num [npMax, npMin, List.max?, List.min?]
  · intro kv hkv
    rw [mkStatsPairs, if_pos (by norm_num)] at hkv
    simp only [List.mem_cons, List.not_mem_nil, or_false] at hkv
    have hmean : npMean [1, 1000] = 1001 / 2 := by norm_num [npMean]
    rcases hkv with h | h | h | h | h | h | h <;> subst h
    · exact qcast_ne (by norm_num)
    · exact qcast_ne (by norm_num [npMean])
    · show npStd [1, 1000] ≠ _
      have hstd : npStd [1, 1000] = Real.sqrt ((999 / 2 : ℝ) ^ 2) := by
        simp only [npStd, hmean, List.map_cons, List.map_nil, List.sum_cons,
          List.sum_nil, List.length_cons, List.length_nil]
        norm_num
      rw [hstd, Real.sqrt_sq (by norm_num : (0 : ℝ) ≤ 999 / 2)]
      norm_num
    · exact qcast_ne
        (by norm_num [npMedian, npPercentile, List.insertionSort, List.orderedInsert])
    · exact qcast_ne (by norm_num [npMax, List.max?])
    · exact qcast_ne
        (by norm_num [npPercentile, List.insertionSort, List.orderedInsert])
    · show lifespanEntropy [1, 1000] ≠ _
      have hle := lifespanEntropy_le [1, 1000] (by
        intro x hx
        simp only [List.mem_cons, List.not_mem_nil, or_false] at hx
        rcases hx with rfl | rfl <;> norm_num)
      intro hEq
      rw [hEq] at hle
      norm_num at hle

/-- C8 as amended: for every nonempty lifespan list, the engine's
per-dimension statistics dict holds exactly count, mean, std, median, max,
IQR and Shannon entropy (computed as `-Σ pᵢ·log(pᵢ+ε)` over lifespans
normalized by `sum + ε`), and no range entry. -/
theorem engine_stats_fields (ls : List ℚ) (h : ls ≠ []) :
    (mkStatsPairs ls).map Prod.fst =
      ["count", "mean_lifespan", "std_lifespan", "median_lifespan",
       "max_lifespan", "iqr_lifespan", "entropy"] ∧
    (∀ kv ∈ mkStatsPairs ls, kv.1 ≠ "range_lifespan" ∧ kv.1 ≠ "range") ∧
    dictGetD (mkStatsPairs ls) "count" 0 = ((ls.length : ℚ) : ℝ) ∧
    dictGetD (mkStatsPairs ls) "mean_lifespan" 0 = ((npMean ls : ℚ) : ℝ) ∧
    dictGetD (mkStatsPairs ls) "std_lifespan" 0 = npStd ls ∧
    dictGetD (mkStatsPairs ls) "median_lifespan" 0 = ((npMedian ls : ℚ) : ℝ) ∧
    dictGetD (mkStatsPairs ls) "max_lifespan" 0 = ((npMax ls : ℚ) : ℝ) ∧
    dictGetD (mkStatsPairs ls) "iqr_lifespan" 0 =
      ((npPercentile ls 75 - npPercentile ls 25 : ℚ) : ℝ) ∧
    dictGetD (mkStatsPairs ls) "entropy" 0 =
      -((ls.map fun x => ((x / (ls.sum + epsTen) : ℚ) : ℝ) *
          Real.log (((x / (ls.sum + epsTen) : ℚ) : ℝ) + ((epsTen : ℚ) : ℝ))).sum) := by
  have hlen : 0 < ls.length := List.length_pos.mpr h
  rw [mkStatsPairs, if_pos hlen]
  refine ⟨rfl, ?_, rfl, rfl, rfl, rfl, rfl, rfl, rfl⟩
  intro kv hkv
  simp only [List.mem_cons, List.not_mem_nil, or_false] at hkv
  rcases hkv with h | h | h | h | h | h | h <;> subst h <;> exact ⟨by simp, by simp⟩

/-- C8 witness: the amended field roster at the one-element lifespan list. -/
theorem engine_stats_fields_witness :
    (mkStatsPairs [1]).map Prod.fst =
      ["count", "mean_lifespan", "std_lifespan", "median_lifespan",
       "max_lifespan", "iqr_lifespan", "entropy"] ∧
    (∀ kv ∈ mkStatsPairs [1], kv.1 ≠ "range_lifespan" ∧ kv.1 ≠ "range") ∧
    dictGetD (mkStatsPairs [1]) "count" 0 = ((([1] : List ℚ).length : ℚ) : ℝ) ∧
    dictGetD (mkStatsPairs [1]) "mean_lifespan" 0 = ((npMean [1] : ℚ) : ℝ) ∧
    dictGetD (mkStatsPairs [1]) "std_lifespan" 0 = npStd [1] ∧
    dictGetD (mkStatsPairs [1]) "median_lifespan" 0 = ((npMedian [1] : ℚ) : ℝ) ∧
    dictGetD (mkStatsPairs [1]) "max_lifespan" 0 = ((npMax [1] : ℚ) : ℝ) ∧
    dictGetD (mkStatsPairs [1]) "iqr_lifespan" 0 =
      ((npPercentile [1] 75 - npPercentile [1] 25 : ℚ) : ℝ) ∧
    dictGetD (mkStatsPairs [1]) "entropy" 0 =
      -((([1] : List ℚ).map fun x =>
          ((x / (([1] : List ℚ).sum + epsTen) : ℚ) : ℝ) *
          Real.log (((x / (([1] : List ℚ).sum + epsTen) : ℚ) : ℝ) +
            ((epsTen : ℚ) : ℝ))).sum) :=
  engine_stats_fields [1] (by simp)

/-- C9 counterexample: with no furniture (0 points < 4) the floor-plan
analysis does not fail with `DegenerateInputError` (or anything else); it
returns the empty analysis. -/
theorem floor_plan_few_points_no_error :
    (furniturePoints []).length < 4 ∧
    (∀ e, analyzeFloorPlanRun alphaOracleEmpty [] [(0, 0), (10, 0), (10, 10)] 6 3 ≠
      POutcome.raised e) ∧
    analyzeFloorPlanRun alphaOracleEmpty [] [(0, 0), (10, 0), (10, 10)] 6 3 =
      POutcome.ok ⟨[], 0, 0, [], [], 0⟩ := by
  refine ⟨by decide, ?_, ?_⟩
  · intro e h
    exact POutcome.noConfusion h
  · rfl

/-- C9 as amended: whenever fewer than (dimension+2) = 4 furniture-derived
points are supplied, the analysis returns successfully with no dead spaces,
zero scores, empty diagrams and the point count — it does not raise. -/
theorem floor_plan_few_points_empty_analysis (g : AlphaOracle)
    (furniture : List Furniture) (boundary : List (ℚ × ℚ)) (dt ct : ℚ)
    (h : (furniturePoints furniture).length < 4) :
    analyzeFloorPlanRun g furniture boundary dt ct =
      POutcome.ok ⟨[], 0, 0, [], [], (furniturePoints furniture).length⟩ := by
  simp only [analyzeFloorPlanRun, analyzeFloorPlanTopology]
  rw [if_pos h]

/-- C9 witness: the empty furniture list yields the empty analysis. -/
theorem floor_plan_few_points_empty_analysis_witness :
    analyzeFloorPlanRun alphaOracleEmpty [] [(0, 0), (10, 0), (0, 10)] 6 3 =
      POutcome.ok ⟨[], 0, 0, [], [], (furniturePoints []).length⟩ :=
  floor_plan_few_points_empty_analysis alphaOracleEmpty [] [(0, 0), (10, 0), (0, 10)]
    6 3 (by decide)

/-- The number of per-window feature vectors equals the number of window
starts `len(range(0, T - window_size, step))`. -/
theorem tada_topo_length (rip : TadaRipserOracle)
    (channels : List (String × List ℚ)) (ws step : ℕ) :
    (tadaTopoFeatures rip channels ws step).length =
      pyRangeLen (tadaT channels - ws) step := by
  simp [tadaTopoFeatures, tadaStarts]

/-- C10: the cross-channel anomaly detector returns the empty list (raising
nothing) when fewer than 2 channels are supplied, and likewise when the
sliding-window pass yields fewer than 10 feature vectors (the number of
starts of `range(0, T - window_size, step)`); any nonempty anomaly list
implies both thresholds were met, so Gaussian fitting and flagging occur
only above them. -/
theorem tada_below_thresholds_empty (rip : TadaRipserOracle)
    (channels : List (String × List ℚ)) (ws step : ℕ) :
    (channels.length < 2 → detectAnomaliesTada rip channels ws step = []) ∧
    (pyRangeLen (tadaT channels - ws) step < 10 →
      detectAnomaliesTada rip channels ws step = []) ∧
    (detectAnomaliesTada rip channels ws step ≠ [] →
      2 ≤ channels.length ∧ 10 ≤ pyRangeLen (tadaT channels - ws) step) := by
  have h1 : channels.length < 2 → detectAnomaliesTada rip channels ws step = [] := by
    intro h
    simp only [detectAnomaliesTada]
    rw [if_pos h]
  have h2 : pyRangeLen (tadaT channels - ws) step < 10 →
      detectAnomaliesTada rip channels ws step = [] := by
    intro h
    simp only [detectAnomaliesTada]
    split_ifs with hch hlen
    · rfl
    · rfl
    · rw [tada_topo_length] at hlen
      omega
  refine ⟨h1, h2, ?_⟩
  intro hne
  constructor
  · by_contra hc
    exact hne (h1 (by omega))
  · by_contra hc
    exact hne (h2 (by omega))

/-- C10 witness: with no channels the detector returns the empty list. -/
theorem tada_below_thresholds_empty_witness :
    detectAnomaliesTada tadaRipEmpty [] 14 1 = [] :=
  (tada_below_thresholds_empty tadaRipEmpty [] 14 1).1 (by decide)

/-- C1: the scaled persistence computation selects its strategy purely from
the point count `n`: for `n ≤ 3000` one exact Rips run up to the requested
dimension at threshold 0.8; for `3001 ≤ n ≤ 10000` dimensions 0-1 exactly at
threshold 0.8 plus dimension 2 on a greedy-permutation subsample of size
`min(n, 2000)` at threshold 0.5, merged (as the fresh `"H2"` entry) into the
dims-0-1 result; for `10001 ≤ n ≤ 50000` sparsified Rips with slack factor
0.3 for all requested dimensions. -/
theorem scaled_strategy_selection (σ : RipserOracle) (g : GudhiOracle)
    (sub : ℕ → ℕ → SubStats) (m : DistMatrix) (maxDim : ℕ) :
    (m.n ≤ 3000 →
      computePersistenceScaled σ g sub m maxDim =
        ScaledOut.std (computePersistencePost (σ m ⟨maxDim, some (8 / 10), none⟩)
          maxDim m.n)) ∧
    (3000 < m.n → m.n ≤ 10000 →
      ∃ r, computePersistenceScaled σ g sub m maxDim = ScaledOut.std r ∧
        (∀ d ≤ 1,
          r.diagrams.getD d ("", []) =
            (hKey d, (σ m ⟨1, some (8 / 10), none⟩).getD d []) ∧
          r.stats.getD d ("", []) =
            (hKey d, mkStatsPairs (lifespansOf
              ((σ m ⟨1, some (8 / 10), none⟩).getD d [])))) ∧
        r.diagrams.getD 2 ("", []) =
          ("H2", (σ m ⟨2, some (5 / 10), some (min m.n 2000)⟩).getD 2 []) ∧
        r.stats.getD 2 ("", []) =
          ("H2", mkStatsPairs (lifespansOf
            ((σ m ⟨2, some (5 / 10), some (min m.n 2000)⟩).getD 2 []))) ∧
        r.numPoints = m.n) ∧
    (10000 < m.n → m.n ≤ 50000 →
      computePersistenceScaled σ g sub m maxDim =
        ScaledOut.std (gudhiSparsePersistence g m maxDim (3 / 10))) ∧
    (50000 < m.n →
      computePersistenceScaled σ g sub m maxDim =
        ScaledOut.multi (multiSubsamplePersistence sub m.n maxDim 2000 20)) := by
  refine ⟨?_, ?_, ?_, ?_⟩
  · intro h
    simp only [computePersistenceScaled, computePersistenceM]
    rw [if_pos h]
  · intro h1 h2
    simp only [computePersistenceScaled, computePersistenceM]
    rw [if_neg (by omega), if_pos h2]
    refine ⟨_, rfl, ?_, ?_, ?_, rfl⟩
    · intro d hd
      dsimp only [computePersistencePost]
      constructor
      · rw [List.getD_append _ _ _ _ (by simp; omega)]
        rw [getD_map_range _ _ _ _ (by omega)]
      · rw [List.getD_append _ _ _ _ (by simp; omega)]
        rw [getD_map_range _ _ _ _ (by omega)]
    · dsimp only [computePersistencePost]
      rw [List.getD_append_right _ _ _ _ (by simp)]
      rfl
    · dsimp only [computePersistencePost]
      rw [List.getD_append_right _ _ _ _ (by simp)]
      rfl
  · intro h1 h2
    simp only [computePersistenceScaled]
    rw [if_neg (by omega), if_neg (by omega), if_pos h2]
  · intro h
    simp only [computePersistenceScaled]
    rw [if_neg (by omega), if_neg (by omega), if_neg (by omega)]

/-- C1 witness: a 2-point matrix takes the exact branch with threshold 0.8. -/
theorem scaled_strategy_selection_witness :
    computePersistenceScaled ripserOracle0 gudhiOracle0 subOracle0 mSmall 2 =
      ScaledOut.std (computePersistencePost
        (ripserOracle0 mSmall ⟨2, some (8 / 10), none⟩) 2 mSmall.n) :=
  (scaled_strategy_selection ripserOracle0 gudhiOracle0 subOracle0 mSmall 2).1
    (by norm_num [mSmall])

set_option maxHeartbeats 1000000 in
/-- C2 counterexample: with 20 subsamples alternating between
(count 1, max 1) and (count 2, max 3), the aggregated `max_lifespan` is the
maximum 3 — not the arithmetic average 2 — and the aggregated count is the
truncated 1, not the average 1.5: not every statistic field is reported as
the average across subsamples. -/
theorem multi_subsample_max_not_averaged :
    (multiSubsamplePersistence subAlternating 60000 0 2000 20).stats =
      [(hKey 0, AggStats.full 1 1 1 1 3 1 1 20 2000)] ∧
    npMean ((((List.range 20).map fun i => subAlternating i 0).filter
      fun s => 0 < s.count).map SubStats.maxLs) = 2 ∧
    (3 : ℚ) ≠ 2 ∧
    npMean ((((List.range 20).map fun i => subAlternating i 0).filter
      fun s => 0 < s.count).map fun s => (s.count : ℚ)) = 3 / 2 ∧
    ((1 : ℤ) : ℚ) ≠ 3 / 2 := by
  have hrange : List.range 20 = [0, 1, 2, 3, 4, 5, 6, 7, 8, 9, 10, 11, 12,
      13, 14, 15, 16, 17, 18, 19] := by rfl
  refine ⟨?_, ?_, by norm_num, ?_, by norm_num⟩
  · simp only [multiSubsamplePersistence, keptSubStats, hrange, subAlternating]
    norm_num [npMean, npMax, SubStats.count, SubStats.meanLs, SubStats.stdLs,
      SubStats.medianLs, SubStats.maxLs, SubStats.iqrLs, SubStats.entropyLs,
      List.max?, List.filter, Int.floor_eq_iff]
    rw [show List.range 1 = [0] from rfl]
    rfl
  · simp only [hrange, subAlternating]
    norm_num [npMean, SubStats.count, SubStats.maxLs, List.filter]
  · simp only [hrange, subAlternating]
    norm_num [npMean, SubStats.count, List.filter]

/-- C2 as amended: for `n > 50000` the scaled computation runs 20 subsamples
of size 2000; per dimension, only subsamples with positive count are kept;
the mean/std/median/IQR/entropy fields are arithmetic averages over the kept
subsamples, while the count is the truncated average and `max_lifespan` the
maximum; per-dimension diagram lists are empty. -/
theorem multi_subsample_aggregation (sub : ℕ → ℕ → SubStats)
    (n maxDim ssize nsub d : ℕ) (hd : d ≤ maxDim) :
    (keptSubStats sub nsub d ≠ [] →
      (multiSubsamplePersistence sub n maxDim ssize nsub).stats.getD d
          ("", AggStats.countOnly) =
        (hKey d, AggStats.full
          ⌊npMean ((keptSubStats sub nsub d).map fun s => (s.count : ℚ))⌋
          (npMean ((keptSubStats sub nsub d).map SubStats.meanLs))
          (npMean ((keptSubStats sub nsub d).map SubStats.stdLs))
          (npMean ((keptSubStats sub nsub d).map SubStats.medianLs))
          (npMax ((keptSubStats sub nsub d).map SubStats.maxLs))
          (npMean ((keptSubStats sub nsub d).map SubStats.iqrLs))
          (npMean ((keptSubStats sub nsub d).map SubStats.entropyLs))
          nsub ssize)) ∧
    (keptSubStats sub nsub d = [] →
      (multiSubsamplePersistence sub n maxDim ssize nsub).stats.getD d
          ("", AggStats.countOnly) = (hKey d, AggStats.countOnly)) ∧
    (multiSubsamplePersistence sub n maxDim ssize nsub).diagrams.getD d
      ("", []) = (hKey d, []) ∧
    (multiSubsamplePersistence sub n maxDim ssize nsub).numPoints = n ∧
    (multiSubsamplePersistence sub n maxDim ssize nsub).method =
      "multi_subsample" ∧
    (∀ (σ : RipserOracle) (g : GudhiOracle) (m : DistMatrix), 50000 < m.n →
      computePersistenceScaled σ g sub m maxDim =
        ScaledOut.multi (multiSubsamplePersistence sub m.n maxDim 2000 20)) := by
  have hlt : d < maxDim + 1 := Nat.lt_succ_of_le hd
  refine ⟨?_, ?_, ?_, rfl, rfl, ?_⟩
  · intro hne
    show ((List.range (maxDim + 1)).map _).getD d _ = _
    rw [getD_map_range _ _ _ _ hlt]
    simp only []
    rw [if_pos (List.length_pos.mpr hne)]
  · intro hempty
    show ((List.range (maxDim + 1)).map _).getD d _ = _
    rw [getD_map_range _ _ _ _ hlt]
    simp only []
    rw [if_neg (by rw [hempty]; norm_num)]
  · show ((List.range (maxDim + 1)).map _).getD d _ = _
    rw [getD_map_range _ _ _ _ hlt]
  · intro σ g m hm
    simp only [computePersistenceScaled]
    rw [if_neg (by omega), if_neg (by omega), if_neg (by omega)]

/-- C2 witness: the aggregation at an all-count-1 subsample oracle. -/
theorem multi_subsample_aggregation_witness :
    (multiSubsamplePersistence subConst1 60000 0 2000 20).stats.getD 0
        ("", AggStats.countOnly) =
      (hKey 0, AggStats.full
        ⌊npMean ((keptSubStats subConst1 20 0).map fun s => (s.count : ℚ))⌋
        (npMean ((keptSubStats subConst1 20 0).map SubStats.meanLs))
        (npMean ((keptSubStats subConst1 20 0).map SubStats.stdLs))
        (npMean ((keptSubStats subConst1 20 0).map SubStats.medianLs))
        (npMax ((keptSubStats subConst1 20 0).map SubStats.maxLs))
        (npMean ((keptSubStats subConst1 20 0).map SubStats.iqrLs))
        (npMean ((keptSubStats subConst1 20 0).map SubStats.entropyLs))
        20 2000) ∧
    (multiSubsamplePersistence subConst1 60000 0 2000 20).diagrams.getD 0
      ("", []) = (hKey 0, []) :=
  ⟨(multi_subsample_aggregation subConst1 60000 0 2000 20 0 (le_refl 0)).1
    (by simp [keptSubStats, subConst1, SubStats.count]),
   (multi_subsample_aggregation subConst1 60000 0 2000 20 0 (le_refl 0)).2.2.1⟩

/-- Any subset of a list's element set is realized by a duplicate-free
sublist. -/
theorem exists_nodup_sublist_of_subset {V : Type} [DecidableEq V]
    (l : List V) (S : Finset V) (h : S ⊆ l.toFinset) :
    ∃ u : List V, u.Sublist l ∧ u.Nodup ∧ u.toFinset = S := by
  induction l generalizing S with
  | nil =>
      refine ⟨[], List.Sublist.refl [], List.nodup_nil, ?_⟩
      simp only [List.toFinset_nil] at h
      simp [Finset.subset_empty.mp h]
  | cons a t ih =>
      by_cases ha : a ∈ S
      · have hsub : S.erase a ⊆ t.toFinset := by
          intro x hx
          have hxS := Finset.mem_of_mem_erase hx
          have hxa := Finset.ne_of_mem_erase hx
          have hmem := h hxS
          simp only [List.toFinset_cons, Finset.mem_insert] at hmem
          rcases hmem with h1 | h2
          · exact absurd h1 hxa
          · exact h2
        rcases ih _ hsub with ⟨u, hsubl, hnd, hfin⟩
        refine ⟨a :: u, hsubl.cons₂ a, ?_, ?_⟩
        · refine List.nodup_cons.mpr ⟨?_, hnd⟩
          intro hmem
          have : a ∈ S.erase a := hfin ▸ List.mem_toFinset.mpr hmem
          exact (Finset.not_mem_erase a S) this
        · simp [List.toFinset_cons, hfin, Finset.insert_erase ha]
      · have hsub : S ⊆ t.toFinset := by
          intro x hx
          have hmem := h hx
          simp only [List.toFinset_cons, Finset.mem_insert] at hmem
          rcases hmem with h1 | h2
          · exact absurd (h1 ▸ hx) ha
          · exact h2
        rcases ih _ hsub with ⟨u, hsubl, hnd, hfin⟩
        exact ⟨u, hsubl.cons a, hnd, hfin⟩

/-- Sorting a duplicate-free list yields the canonical form of its vertex
set. -/
theorem canonSimplex_eq_canonOfFinset {α : Type} [DecidableEq α] [LinearOrder α]
    (u : List (Entity α)) (S : Finset (Entity α)) (hnd : u.Nodup)
    (hfin : u.toFinset = S) : canonSimplex u = canonOfFinset S := by
  apply List.eq_of_perm_of_sorted (r := (· ≤ ·))
  · exact (List.perm_insertionSort _ u).trans
      (List.perm_of_nodup_nodup_toFinset_eq hnd (Finset.sort_nodup (· ≤ ·) S)
        (by rw [canonOfFinset, Finset.sort_toFinset, hfin]))
  · exact List.sorted_insertionSort _ u
  · exact Finset.sort_sorted _ S

/-- Canonicalized raw simplices land in the built complex. -/
theorem mem_simplicesByDim_of_raw {α : Type} [DecidableEq α] [LinearOrder α]
    (bookings : List (Booking α)) (b : Booking α) (hb : b ∈ bookings)
    (k : ℕ) (hk : k ≠ 0) (u : List (Entity α)) (hu : u ∈ rawSimplicesAt b k) :
    canonSimplex u ∈ simplicesByDim bookings k := by
  simp only [simplicesByDim, if_neg hk]
  rw [List.mem_dedup]
  exact List.mem_map_of_mem _ (List.mem_flatMap.mpr ⟨b, hb, hu⟩)

/-- Sublists of a booking's entity list of the right length are raw
simplices. -/
theorem mem_raw_of_sublist {α : Type} (b : Booking α) (u : List (Entity α))
    (hsl : u.Sublist (allEntities b)) (k : ℕ) (hk : 1 ≤ k) (hk4 : k ≤ 3)
    (hlen : u.length = k + 1) : u ∈ rawSimplicesAt b k := by
  interval_cases k
  · simp [rawSimplicesAt, List.mem_sublistsLen, hsl, hlen]
  · simp [rawSimplicesAt, List.mem_sublistsLen, hsl, hlen]
  · have h4 : 4 ≤ (allEntities b).length := by
      have := hsl.length_le
      omega
    simp [rawSimplicesAt, if_pos h4, List.mem_sublistsLen, hsl, hlen]

/-- Entities of a booking are in the accumulated entity set. -/
theorem mem_entitiesOf {α : Type} [DecidableEq α] (bookings : List (Booking α))
    (b : Booking α) (hb : b ∈ bookings) (e : Entity α) (he : e ∈ allEntities b) :
    e ∈ entitiesOf bookings := by
  rw [entitiesOf, List.mem_dedup]
  exact List.mem_flatMap.mpr ⟨b, hb, he⟩

/-- Every nonempty subset of a booking's entity set with at most 4 elements
is present as a simplex. -/
theorem present_of_subset_small {α : Type} [DecidableEq α] [LinearOrder α]
    (bookings : List (Booking α)) (b : Booking α) (hb : b ∈ bookings)
    (S : Finset (Entity α)) (hsub : S ⊆ (allEntities b).toFinset)
    (hne : S.Nonempty) (hcard : S.card ≤ 4) : presentSimplex bookings S := by
  rcases exists_nodup_sublist_of_subset (allEntities b) S hsub with ⟨u, hsl, hnd, hfin⟩
  have hlen : u.length = S.card := by
    rw [← hfin, List.card_toFinset, List.dedup_eq_self.mpr hnd]
  have hpos : 1 ≤ S.card := hne.card_pos
  by_cases h1 : S.card = 1
  · rcases Finset.card_eq_one.mp h1 with ⟨e, rfl⟩
    refine ⟨0, ?_⟩
    have hcanon : canonOfFinset {e} = [e] := by
      rw [canonOfFinset, Finset.sort_singleton]
    rw [hcanon]
    simp only [simplicesByDim, if_pos rfl]
    refine List.mem_map.mpr ⟨e, ?_, rfl⟩
    have he : e ∈ allEntities b := by
      have := hsub (Finset.mem_singleton_self e)
      exact List.mem_toFinset.mp this
    exact mem_entitiesOf bookings b hb e he
  · refine ⟨S.card - 1, ?_⟩
    rw [← canonSimplex_eq_canonOfFinset u S hnd hfin]
    refine mem_simplicesByDim_of_raw bookings b hb _ (by omega) u ?_
    exact mem_raw_of_sublist b u hsl _ (by omega) (by omega) (by omega)

/-- Every simplex of the booking complex has at most 4 vertices and exactly
`k+1` entries at dimension `k`. -/
theorem simplicesByDim_length_le {α : Type} [DecidableEq α] [LinearOrder α]
    (bookings : List (Booking α)) (k : ℕ) (s : List (Entity α))
    (hs : s ∈ simplicesByDim bookings k) : s.length ≤ 4 ∧ s.length = k + 1 := by
  by_cases h0 : k = 0
  · subst h0
    simp only [simplicesByDim, if_pos rfl] at hs
    rcases List.mem_map.mp hs with ⟨e, _, rfl⟩
    simp
  · simp only [simplicesByDim, if_neg h0, List.mem_dedup] at hs
    rcases List.mem_map.mp hs with ⟨u, hu, rfl⟩
    rcases List.mem_flatMap.mp hu with ⟨b, _, hraw⟩
    have hlen : (canonSimplex u).length = u.length :=
      (List.perm_insertionSort _ u).length_eq
    rw [rawSimplicesAt] at hraw
    by_cases hk1 : k = 1
    · subst hk1
      simp only [if_pos rfl] at hraw
      have := (List.mem_sublistsLen.mp hraw).2
      omega
    · by_cases hk2 : k = 2
      · subst hk2
        simp only [if_neg (by omega : ¬ (2 : ℕ) = 1), if_pos rfl] at hraw
        have := (List.mem_sublistsLen.mp hraw).2
        omega
      · by_cases hk3 : k = 3
        · subst hk3
          simp only [if_neg (by omega : ¬ (3 : ℕ) = 1),
            if_neg (by omega : ¬ (3 : ℕ) = 2), if_pos rfl] at hraw
          by_cases h4 : 4 ≤ (allEntities b).length
          · rw [if_pos h4] at hraw
            have := (List.mem_sublistsLen.mp hraw).2
            omega
          · rw [if_neg h4] at hraw
            exact absurd hraw (List.not_mem_nil u)
        · rw [if_neg hk1, if_neg hk2, if_neg hk3] at hraw
          exact absurd hraw (List.not_mem_nil u)

/-- Raw simplices are sublists of their booking's entity list, of length
`k+1`, for `1 ≤ k ≤ 3`. -/
theorem rawSimplicesAt_spec {α : Type} (b : Booking α) (k : ℕ)
    (u : List (Entity α)) (hu : u ∈ rawSimplicesAt b k) :
    u.Sublist (allEntities b) ∧ u.length = k + 1 ∧ 1 ≤ k ∧ k ≤ 3 := by
  rw [rawSimplicesAt] at hu
  by_cases hk1 : k = 1
  · subst hk1
    rw [if_pos rfl] at hu
    have := List.mem_sublistsLen.mp hu
    exact ⟨this.1, by omega, by omega, by omega⟩
  · by_cases hk2 : k = 2
    · subst hk2
      rw [if_neg (by omega), if_pos rfl] at hu
      have := List.mem_sublistsLen.mp hu
      exact ⟨this.1, by omega, by omega, by omega⟩
    · by_cases hk3 : k = 3
      · subst hk3
        rw [if_neg (by omega), if_neg (by omega), if_pos rfl] at hu
        by_cases h4 : 4 ≤ (allEntities b).length
        · rw [if_pos h4] at hu
          have := List.mem_sublistsLen.mp hu
          exact ⟨this.1, by omega, by omega, by omega⟩
        · rw [if_neg h4] at hu
          exact absurd hu (List.not_mem_nil u)
      · rw [if_neg hk1, if_neg hk2, if_neg hk3] at hu
        exact absurd hu (List.not_mem_nil u)

/-- C3 counterexample: a booking with two vendors has a 5-element entity
set, and that set itself is not present as a simplex of its complex — not
every nonempty subset of the entity set is added. -/
theorem booking_complex_misses_large_subset :
    (allEntities booking5).toFinset.card = 5 ∧
    ¬ presentSimplex [booking5] (allEntities booking5).toFinset := by
  refine ⟨by decide, ?_⟩
  rintro ⟨k, hk⟩
  have hlen := (simplicesByDim_length_le [booking5] k _ hk).1
  have h5 : (canonOfFinset (allEntities booking5).toFinset).length = 5 := by
    rw [canonOfFinset, Finset.length_sort]
    decide
  omega

/-- C3 as amended: for every booking, every nonempty subset of its entity
set with at most 4 elements is present as a simplex, and the complex is
downward closed — every nonempty subset of the vertex set of any member
simplex is itself present. -/
theorem booking_complex_downward_closed {α : Type} [DecidableEq α] [LinearOrder α]
    (bookings : List (Booking α)) :
    (∀ b ∈ bookings, ∀ S : Finset (Entity α), S ⊆ (allEntities b).toFinset →
      S.Nonempty → S.card ≤ 4 → presentSimplex bookings S) ∧
    (∀ k, ∀ s ∈ simplicesByDim bookings k, ∀ T : Finset (Entity α),
      T ⊆ s.toFinset → T.Nonempty → presentSimplex bookings T) := by
  constructor
  · intro b hb S hsub hne hcard
    exact present_of_subset_small bookings b hb S hsub hne hcard
  · intro k s hs T hTsub hTne
    by_cases h0 : k = 0
    · subst h0
      simp only [simplicesByDim, if_pos rfl] at hs
      rcases List.mem_map.mp hs with ⟨e, he, rfl⟩
      rw [entitiesOf, List.mem_dedup] at he
      rcases List.mem_flatMap.mp he with ⟨b, hb, hball⟩
      have hT : T = {e} := by
        rcases (Finset.subset_singleton_iff.mp (by simpa using hTsub)) with h | h
        · exact absurd h (Finset.nonempty_iff_ne_empty.mp hTne)
        · exact h
      subst hT
      refine present_of_subset_small bookings b hb {e} ?_ hTne (by simp)
      intro x hx
      rw [Finset.mem_singleton] at hx
      subst hx
      exact List.mem_toFinset.mpr hball
    · simp only [simplicesByDim, if_neg h0, List.mem_dedup] at hs
      rcases List.mem_map.mp hs with ⟨u, hu, rfl⟩
      rcases List.mem_flatMap.mp hu with ⟨b, hb, hraw⟩
      rcases rawSimplicesAt_spec b k u hraw with ⟨hsl, hlen, _, hk3⟩
      have hperm : List.Perm (canonSimplex u) u := List.perm_insertionSort _ u
      have hfin : (canonSimplex u).toFinset = u.toFinset :=
        List.toFinset_eq_of_perm _ _ hperm
      refine present_of_subset_small bookings b hb T ?_ hTne ?_
      · intro x hx
        have hxu := hTsub hx
        rw [hfin] at hxu
        exact List.mem_toFinset.mpr (hsl.subset (List.mem_toFinset.mp hxu))
      · have h1 : T.card ≤ (canonSimplex u).toFinset.card := Finset.card_le_card hTsub
        have h2 : (canonSimplex u).toFinset.card ≤ (canonSimplex u).length :=
          (canonSimplex u).toFinset_card_le
        have h3 : (canonSimplex u).length = u.length := hperm.length_eq
        omega

/-- C3 witness: the venue-vendor pair of the two-vendor booking is present. -/
theorem booking_complex_downward_closed_witness :
    presentSimplex [booking5]
      ({Entity.venue 0, Entity.vendor 3} : Finset (Entity ℕ)) :=
  (booking_complex_downward_closed [booking5]).1 booking5
    (List.mem_singleton.mpr rfl)
    ({Entity.venue 0, Entity.vendor 3} : Finset (Entity ℕ))
    (by decide) (by decide) (by decide)

theorem IsRoot.iterate {V : Type} {p : V → V} {r : V} (h : IsRoot p r) (m : ℕ) :
    p^[m] r = r := by
  induction m with
  | zero => rfl
  | succ m ih => rw [Function.iterate_succ_apply', ih, h]

theorem reaches_unique {V : Type} {p : V → V} {v r₁ r₂ : V}
    (h1 : Reaches p v r₁) (h2 : Reaches p v r₂) : r₁ = r₂ := by
  rcases h1 with ⟨k₁, hk1, hr1⟩
  rcases h2 with ⟨k₂, hk2, hr2⟩
  rcases Nat.le_total k₁ k₂ with h | h
  · have : p^[k₂] v = r₁ := by
      rw [← Nat.sub_add_cancel h, Function.iterate_add_apply, hk1, hr1.iterate]
    rw [← this, hk2]
  · have : p^[k₁] v = r₂ := by
      rw [← Nat.sub_add_cancel h, Function.iterate_add_apply, hk2, hr2.iterate]
    rw [← hk1, this]

theorem reachesIn_succ_iff {V : Type} {p : V → V} {x r : V} {k : ℕ} :
    ReachesIn p x (k + 1) r ↔ ReachesIn p (p x) k r := by
  unfold ReachesIn
  rw [Function.iterate_succ_apply]

theorem reaches_of_root {V : Type} {p : V → V} {x r : V} (hx : IsRoot p x)
    (h : Reaches p x r) : x = r := by
  rcases h with ⟨k, hk, hr⟩
  rw [← hk, hx.iterate]

theorem reaches_self_of_root {V : Type} {p : V → V} {x : V} (hx : IsRoot p x) :
    Reaches p x x := ⟨0, rfl, hx⟩

theorem reaches_parent_iff {V : Type} {p : V → V} {x r : V} :
    Reaches p (p x) r ↔ Reaches p x r := by
  constructor
  · rintro ⟨k, hk⟩
    exact ⟨k + 1, reachesIn_succ_iff.mpr hk⟩
  · rintro ⟨k, hk⟩
    cases k with
    | zero =>
        have hxr : x = r := by simpa using hk.1
        subst hxr
        exact ⟨0, by simpa [IsRoot] using hk.2, hk.2⟩
    | succ k => exact ⟨k, reachesIn_succ_iff.mp hk⟩

theorem sameRoot_refl {V : Type} {p : V → V} (hwf : ∀ v : V, ∃ r, Reaches p v r)
    (v : V) : sameRoot p v v := by
  rcases hwf v with ⟨r, hr⟩
  exact ⟨r, hr, hr⟩

theorem sameRoot_symm {V : Type} {p : V → V} {u v : V} (h : sameRoot p u v) :
    sameRoot p v u := by
  rcases h with ⟨r, h1, h2⟩
  exact ⟨r, h2, h1⟩

theorem sameRoot_trans {V : Type} {p : V → V} {u v w : V}
    (h1 : sameRoot p u v) (h2 : sameRoot p v w) : sameRoot p u w := by
  rcases h1 with ⟨r, hu, hv⟩
  rcases h2 with ⟨s, hv', hw⟩
  rw [reaches_unique hv hv'] at hu
  exact ⟨s, hu, hw⟩

theorem reaches_mem {V : Type} {verts : Finset V} {p : V → V}
    (hwf : UFWF verts p) {v r : V} (hv : v ∈ verts) (h : Reaches p v r) :
    r ∈ verts := by
  rcases h with ⟨k, hk⟩
  induction k generalizing v with
  | zero =>
      have : v = r := by simpa using hk.1
      exact this ▸ hv
  | succ k ih =>
      have hk' : ReachesIn p (p v) k r := reachesIn_succ_iff.mp hk
      by_cases hpv : p v = v
      · exact ih (by rwa [hpv]) hk'
      · exact ih (hwf.1 v hpv).2 hk'

theorem reaches_bound {V : Type} [DecidableEq V] {verts : Finset V} {p : V → V}
    (hwf : UFWF verts p) (v : V) :
    ∃ r k, k ≤ verts.card ∧ ReachesIn p v k r := by
  classical
  rcases hwf.2 v with ⟨r0, k0, hk0⟩
  have hex : ∃ k, IsRoot p (p^[k] v) := ⟨k0, by rw [hk0.1]; exact hk0.2⟩
  have hk : IsRoot p (p^[Nat.find hex] v) := Nat.find_spec hex
  have hmin : ∀ i < Nat.find hex, ¬ IsRoot p (p^[i] v) :=
    fun i hi => Nat.find_min hex hi
  refine ⟨p^[Nat.find hex] v, Nat.find hex, ?_, rfl, hk⟩
  set k := Nat.find hex with hkdef
  have key : ∀ i j, i < j → j < k → p^[i] v ≠ p^[j] v := by
    intro i j hij hjk heq
    have hper : p^[k] v = p^[k - (j - i)] v := by
      have h1 : k = (k - j) + j := by omega
      have h2 : k - (j - i) = (k - j) + i := by omega
      calc p^[k] v = p^[(k - j) + j] v := by rw [← h1]
        _ = p^[k - j] (p^[j] v) := Function.iterate_add_apply p (k - j) j v
        _ = p^[k - j] (p^[i] v) := by rw [heq]
        _ = p^[(k - j) + i] v := (Function.iterate_add_apply p (k - j) i v).symm
        _ = p^[k - (j - i)] v := by rw [← h2]
    have hroot2 : IsRoot p (p^[k - (j - i)] v) := by rw [← hper]; exact hk
    exact hmin _ (by omega) hroot2
  have hmem : ∀ i < k, p^[i] v ∈ verts := fun i hi => (hwf.1 _ (hmin i hi)).1
  have : (Finset.range k).card ≤ verts.card := by
    apply Finset.card_le_card_of_injOn (fun i => p^[i] v)
    · intro i hi
      exact hmem i (Finset.mem_range.mp hi)
    · intro i hi j hj heq
      rcases Nat.lt_trichotomy i j with h | h | h
      · exact absurd heq (key i j h (Finset.mem_range.mp hj))
      · exact h
      · exact absurd heq.symm (key j i h (Finset.mem_range.mp hi))
  simpa using this

theorem halving_reachesIn {V : Type} [DecidableEq V] {p : V → V} {x : V}
    (hne : p x ≠ x) :
    ∀ n v r, ReachesIn p v n r →
      ∃ k' ≤ n, ReachesIn (Function.update p x (p (p x))) v k' r := by
  intro n
  induction n using Nat.strong_induction_on with
  | _ n ih =>
    intro v r hv
    have hrx : r ≠ x := fun h => hne (by rw [← h]; exact hv.2)
    have hr1 : IsRoot (Function.update p x (p (p x))) r := by
      rw [IsRoot, Function.update_apply, if_neg hrx]
      exact hv.2
    by_cases hroot : p v = v
    · have hvr : v = r := reaches_of_root hroot ⟨n, hv⟩
      subst hvr
      exact ⟨0, Nat.zero_le n, rfl, hr1⟩
    · cases n with
      | zero =>
          have hvr : v = r := by simpa using hv.1
          exact absurd (show IsRoot p v from hvr ▸ hv.2) hroot
      | succ m =>
        have hstep : ReachesIn p (p v) m r := reachesIn_succ_iff.mp hv
        by_cases hvx : v = x
        · subst hvx
          by_cases hpx : p (p v) = p v
          · have hrpx : p v = r := reaches_of_root hpx ⟨m, hstep⟩
            refine ⟨1, by omega, ?_, hr1⟩
            show (Function.update p v (p (p v)))^[1] v = r
            rw [Function.iterate_one, Function.update_same, hpx, hrpx]
          · cases m with
            | zero =>
                have hpvr : p v = r := by simpa using hstep.1
                exact absurd (show p (p v) = p v by rw [hpvr]; exact hstep.2) hpx
            | succ m2 =>
              have hstep2 : ReachesIn p (p (p v)) m2 r := reachesIn_succ_iff.mp hstep
              rcases ih m2 (by omega) (p (p v)) r hstep2 with ⟨k', hk', hre⟩
              refine ⟨k' + 1, by omega, ?_, hre.2⟩
              rw [Function.iterate_succ_apply, Function.update_same]
              exact hre.1
        · rcases ih m (by omega) (p v) r hstep with ⟨k', hk', hre⟩
          refine ⟨k' + 1, by omega, ?_, hre.2⟩
          rw [Function.iterate_succ_apply, Function.update_noteq hvx]
          exact hre.1

theorem halving_preserves {V : Type} [DecidableEq V] {verts : Finset V}
    {p : V → V} {x : V} (hwf : UFWF verts p) (hx : x ∈ verts) (hne : p x ≠ x) :
    UFWF verts (Function.update p x (p (p x))) ∧
    (∀ v r, Reaches (Function.update p x (p (p x))) v r ↔ Reaches p v r) := by
  have fwd : ∀ v r, Reaches p v r →
      Reaches (Function.update p x (p (p x))) v r := by
    rintro v r ⟨k, hk⟩
    rcases halving_reachesIn hne k v r hk with ⟨k', _, h⟩
    exact ⟨k', h⟩
  have hterm : ∀ v, ∃ r, Reaches (Function.update p x (p (p x))) v r :=
    fun v => (hwf.2 v).imp (fun r => fwd v r)
  have bwd : ∀ v r, Reaches (Function.update p x (p (p x))) v r →
      Reaches p v r := by
    intro v r h1
    rcases hwf.2 v with ⟨r0, h0⟩
    have h2 := fwd v r0 h0
    rw [reaches_unique h1 h2]
    exact h0
  refine ⟨⟨?_, hterm⟩, fun v r => ⟨bwd v r, fwd v r⟩⟩
  intro y hy
  by_cases hyx : y = x
  · subst hyx
    refine ⟨hx, ?_⟩
    rw [Function.update_same]
    by_cases hpp : p (p y) = p y
    · rw [hpp]
      exact (hwf.1 y hne).2
    · exact (hwf.1 (p y) hpp).2
  · rw [Function.update_noteq hyx] at hy ⊢
    exact hwf.1 y hy

theorem ufFindAux_spec {V : Type} [DecidableEq V] {verts : Finset V} :
    ∀ (fuel : ℕ) (p : V → V) (x r : V) (k : ℕ), UFWF verts p →
      ReachesIn p x k r → k ≤ fuel →
      (ufFindAux fuel p x).1 = r ∧
      UFWF verts ((ufFindAux fuel p x).2) ∧
      (∀ v s, Reaches ((ufFindAux fuel p x).2) v s ↔ Reaches p v s) := by
  intro fuel
  induction fuel with
  | zero =>
      intro p x r k hwf hre hk
      have hk0 : k = 0 := by omega
      subst hk0
      have hx : x = r := by simpa using hre.1
      exact ⟨hx, hwf, fun v s => Iff.rfl⟩
  | succ fuel ih =>
      intro p x r k hwf hre hk
      by_cases hroot : p x = x
      · have hx : x = r := reaches_of_root hroot ⟨k, hre⟩
        have hrw0 : ufFindAux (fuel + 1) p x = (x, p) := by
          simp only [ufFindAux, if_pos hroot]
        rw [hrw0]
        exact ⟨hx, hwf, fun v s => Iff.rfl⟩
      · have hx : x ∈ verts := (hwf.1 x hroot).1
        obtain ⟨hwf1, hiff⟩ := halving_preserves hwf hx hroot
        have hrw : ufFindAux (fuel + 1) p x =
            ufFindAux fuel (Function.update p x (p (p x))) (p (p x)) := by
          simp only [ufFindAux, if_neg hroot]
        have hkpos : 1 ≤ k := by
          by_contra hc
          have : k = 0 := by omega
          subst this
          exact hroot (show IsRoot p x from (by simpa using hre.1) ▸ hre.2)
        obtain ⟨m, rfl⟩ : ∃ m, k = m + 1 := ⟨k - 1, by omega⟩
        have hstep : ReachesIn p (p x) m r := reachesIn_succ_iff.mp hre
        have hchain : ∃ k1 ≤ fuel,
            ReachesIn (Function.update p x (p (p x))) (p (p x)) k1 r := by
          by_cases hpp : p (p x) = p x
          · have hpxr : p x = r := reaches_of_root hpp ⟨m, hstep⟩
            have hrneqx : r ≠ x := by rw [← hpxr]; exact hroot
            refine ⟨0, Nat.zero_le fuel, ?_, ?_⟩
            · simpa using hpp.trans hpxr
            · rw [IsRoot, Function.update_apply, if_neg hrneqx]
              exact hre.2
          · cases m with
            | zero =>
                have hpxr : p x = r := by simpa using hstep.1
                exact absurd (show p (p x) = p x by rw [hpxr]; exact hstep.2) hpp
            | succ m2 =>
              have hstep2 : ReachesIn p (p (p x)) m2 r := reachesIn_succ_iff.mp hstep
              rcases halving_reachesIn hroot m2 (p (p x)) r hstep2 with ⟨k1, hk1, h⟩
              exact ⟨k1, by omega, h⟩
        rcases hchain with ⟨k1, hk1, hre1⟩
        rcases ih (Function.update p x (p (p x))) (p (p x)) r k1 hwf1 hre1 hk1 with
          ⟨hfst, hwf2, hiff2⟩
        rw [hrw]
        exact ⟨hfst, hwf2, fun v s => (hiff2 v s).trans (hiff v s)⟩

theorem sameRoot_congr {V : Type} {p q : V → V}
    (h : ∀ v r, Reaches q v r ↔ Reaches p v r) (u v : V) :
    sameRoot q u v ↔ sameRoot p u v := by
  unfold sameRoot
  constructor <;> rintro ⟨r, h1, h2⟩ <;> exact ⟨r, by rw [h] at *; exact h1,
    by rw [h] at *; exact h2⟩

theorem update_root_reaches_self {V : Type} [DecidableEq V] {p : V → V}
    {ra rb : V} (hrb : IsRoot p rb) (hab : ra ≠ rb) (v : V) (hv : IsRoot p v) :
    Reaches (Function.update p ra rb) v (if v = ra then rb else v) := by
  have hrb' : IsRoot (Function.update p ra rb) rb := by
    rw [IsRoot, Function.update_noteq (Ne.symm hab)]
    exact hrb
  by_cases hva : v = ra
  · subst hva
    rw [if_pos rfl]
    exact ⟨1, by rw [Function.iterate_one, Function.update_same], hrb'⟩
  · rw [if_neg hva]
    refine reaches_self_of_root ?_
    rw [IsRoot, Function.update_noteq hva]
    exact hv

theorem update_root_reaches {V : Type} [DecidableEq V] {p : V → V} {ra rb : V}
    (hra : IsRoot p ra) (hrb : IsRoot p rb) (hab : ra ≠ rb) :
    ∀ k v r, ReachesIn p v k r →
      Reaches (Function.update p ra rb) v (if r = ra then rb else r) := by
  intro k
  induction k with
  | zero =>
      intro v r hv
      have hvr : v = r := by simpa using hv.1
      subst hvr
      exact update_root_reaches_self hrb hab v hv.2
  | succ k ih =>
      intro v r hv
      by_cases hvroot : p v = v
      · have hvr : v = r := reaches_of_root hvroot ⟨_, hv⟩
        subst hvr
        exact update_root_reaches_self hrb hab v hvroot
      · have hvra : v ≠ ra := fun h => hvroot (by rw [h]; exact hra)
        have hstep : ReachesIn p (p v) k r := reachesIn_succ_iff.mp hv
        rcases ih (p v) r hstep with ⟨k', hk'⟩
        refine ⟨k' + 1, ?_, hk'.2⟩
        rw [Function.iterate_succ_apply, Function.update_noteq hvra]
        exact hk'.1

theorem update_root_spec {V : Type} [DecidableEq V] {verts : Finset V}
    {p : V → V} {ra rb : V} (hwf : UFWF verts p) (hra : IsRoot p ra)
    (hrb : IsRoot p rb) (hab : ra ≠ rb) (hraV : ra ∈ verts) (hrbV : rb ∈ verts) :
    UFWF verts (Function.update p ra rb) ∧
    (∀ u v, sameRoot (Function.update p ra rb) u v ↔
      relJoin (sameRoot p) ra rb u v) := by
  have hreach' : ∀ w rw, Reaches p w rw →
      Reaches (Function.update p ra rb) w (if rw = ra then rb else rw) := by
    rintro w rw ⟨k, hk⟩
    exact update_root_reaches hra hrb hab k w rw hk
  have hterm : ∀ v, ∃ r, Reaches (Function.update p ra rb) v r := by
    intro v
    rcases hwf.2 v with ⟨r, hr⟩
    exact ⟨_, hreach' v r hr⟩
  constructor
  · refine ⟨?_, hterm⟩
    intro y hy
    by_cases hya : y = ra
    · subst hya
      exact ⟨hraV, by rwa [Function.update_same]⟩
    · rw [Function.update_noteq hya] at hy ⊢
      exact hwf.1 y hy
  · intro u v
    rcases hwf.2 u with ⟨ru, hru⟩
    rcases hwf.2 v with ⟨rv, hrv⟩
    have hu' := hreach' u ru hru
    have hv' := hreach' v rv hrv
    constructor
    · rintro ⟨r, h1, h2⟩
      have e1 : r = if ru = ra then rb else ru := reaches_unique h1 hu'
      have e2 : r = if rv = ra then rb else rv := reaches_unique h2 hv'
      by_cases hu : ru = ra <;> by_cases hv : rv = ra
      · exact Or.inl ⟨ru, hru, by rw [hu, ← hv]; exact hrv⟩
      · -- ru = ra, rv ≠ ra: rb = rv
        rw [if_pos hu] at e1
        rw [if_neg hv] at e2
        have : rv = rb := by rw [← e2, e1]
        refine Or.inr (Or.inl ⟨⟨ra, by rwa [← hu], reaches_self_of_root hra⟩,
          ⟨rb, reaches_self_of_root hrb, by rwa [← this]⟩⟩)
      · rw [if_neg hu] at e1
        rw [if_pos hv] at e2
        have : ru = rb := by rw [← e1, e2]
        refine Or.inr (Or.inr ⟨⟨rb, by rwa [← this], reaches_self_of_root hrb⟩,
          ⟨ra, reaches_self_of_root hra, by rwa [← hv]⟩⟩)
      · rw [if_neg hu] at e1
        rw [if_neg hv] at e2
        have he : ru = rv := by rw [← e1, e2]
        exact Or.inl ⟨ru, hru, by rw [he]; exact hrv⟩
    · intro hjoin
      rcases hjoin with hsame | ⟨hua, hbv⟩ | ⟨hub, hav⟩
      · rcases hsame with ⟨r, h1u, h1v⟩
        exact ⟨_, hreach' u r h1u, hreach' v r h1v⟩
      · have hures : Reaches p u ra := by
          rcases hua with ⟨r, h1, h2⟩
          rw [← reaches_of_root hra h2] at h1
          exact h1
        have hvres : Reaches p v rb := by
          rcases hbv with ⟨s, h1, h2⟩
          rw [← reaches_of_root hrb h1] at h2
          exact h2
        have h1 := hreach' u ra hures
        rw [if_pos rfl] at h1
        have h2 := hreach' v rb hvres
        rw [if_neg (Ne.symm hab)] at h2
        exact ⟨rb, h1, h2⟩
      · have hures : Reaches p u rb := by
          rcases hub with ⟨r, h1, h2⟩
          rw [← reaches_of_root hrb h2] at h1
          exact h1
        have hvres : Reaches p v ra := by
          rcases hav with ⟨s, h1, h2⟩
          rw [← reaches_of_root hra h1] at h2
          exact h2
        have h1 := hreach' u rb hures
        rw [if_neg (Ne.symm hab)] at h1
        have h2 := hreach' v ra hvres
        rw [if_pos rfl] at h2
        exact ⟨rb, h1, h2⟩

theorem relJoin_congr {V : Type} {R S : V → V → Prop}
    (h : ∀ u v, R u v ↔ S u v) (a b u v : V) :
    relJoin R a b u v ↔ relJoin S a b u v := by
  unfold relJoin
  rw [h, h, h, h, h]

theorem ufUnion_spec {V : Type} [DecidableEq V] {verts : Finset V} {p : V → V}
    (hwf : UFWF verts p) (fuel : ℕ) (hfuel : verts.card ≤ fuel) (a b : V)
    (ha : a ∈ verts) (hb : b ∈ verts) :
    UFWF verts (ufUnion fuel p a b) ∧
    (∀ u v, sameRoot (ufUnion fuel p a b) u v ↔ relJoin (sameRoot p) a b u v) := by
  rcases reaches_bound hwf a with ⟨ra, k, hk, hre⟩
  obtain ⟨hfa1, hwf1, hiff1⟩ :=
    ufFindAux_spec fuel p a ra k hwf hre (le_trans hk hfuel)
  rcases reaches_bound hwf1 b with ⟨rb, k2, hk2, hre2⟩
  obtain ⟨hfb1, hwf2, hiff2⟩ :=
    ufFindAux_spec fuel ((ufFindAux fuel p a).2) b rb k2 hwf1 hre2
      (le_trans hk2 hfuel)
  have hpa : Reaches p a ra := ⟨k, hre⟩
  have hp1b : Reaches ((ufFindAux fuel p a).2) b rb := ⟨k2, hre2⟩
  have hpb : Reaches p b rb := (hiff1 b rb).mp hp1b
  have hp2a : Reaches ((ufFindAux fuel ((ufFindAux fuel p a).2) b).2) a ra :=
    (hiff2 a ra).mpr ((hiff1 a ra).mpr hpa)
  have hp2b : Reaches ((ufFindAux fuel ((ufFindAux fuel p a).2) b).2) b rb :=
    (hiff2 b rb).mpr hp1b
  have hiff12 : ∀ v s,
      Reaches ((ufFindAux fuel ((ufFindAux fuel p a).2) b).2) v s ↔
        Reaches p v s := fun v s => (hiff2 v s).trans (hiff1 v s)
  have hsraa : sameRoot p a ra := by
    rcases hpa with ⟨kk, hkk⟩
    exact ⟨ra, ⟨kk, hkk⟩, reaches_self_of_root hkk.2⟩
  have hsrbb : sameRoot p b rb := by
    rcases hpb with ⟨kk, hkk⟩
    exact ⟨rb, ⟨kk, hkk⟩, reaches_self_of_root hkk.2⟩
  have hrepl : ∀ u v, relJoin (sameRoot p) ra rb u v ↔ relJoin (sameRoot p) a b u v := by
    intro u v
    unfold relJoin
    constructor
    · rintro (h | ⟨h1, h2⟩ | ⟨h1, h2⟩)
      · exact Or.inl h
      · exact Or.inr (Or.inl ⟨sameRoot_trans h1 (sameRoot_symm hsraa),
          sameRoot_trans hsrbb h2⟩)
      · exact Or.inr (Or.inr ⟨sameRoot_trans h1 (sameRoot_symm hsrbb),
          sameRoot_trans hsraa h2⟩)
    · rintro (h | ⟨h1, h2⟩ | ⟨h1, h2⟩)
      · exact Or.inl h
      · exact Or.inr (Or.inl ⟨sameRoot_trans h1 hsraa,
          sameRoot_trans (sameRoot_symm hsrbb) h2⟩)
      · exact Or.inr (Or.inr ⟨sameRoot_trans h1 hsrbb,
          sameRoot_trans (sameRoot_symm hsraa) h2⟩)
  rw [ufUnion]
  simp only [hfa1, hfb1]
  by_cases heq : ra = rb
  · rw [if_pos heq]
    refine ⟨hwf2, ?_⟩
    intro u v
    rw [sameRoot_congr hiff12 u v, ← hrepl u v]
    unfold relJoin
    subst heq
    constructor
    · exact Or.inl
    · rintro (h | ⟨h1, h2⟩ | ⟨h1, h2⟩)
      · exact h
      · exact sameRoot_trans h1 h2
      · exact sameRoot_trans h1 h2
  · rw [if_neg heq]
    have hra2 : IsRoot ((ufFindAux fuel ((ufFindAux fuel p a).2) b).2) ra := by
      rcases hp2a with ⟨kk, hkk⟩
      exact hkk.2
    have hrb2 : IsRoot ((ufFindAux fuel ((ufFindAux fuel p a).2) b).2) rb := by
      rcases hp2b with ⟨kk, hkk⟩
      exact hkk.2
    have hraV : ra ∈ verts := reaches_mem hwf ha hpa
    have hrbV : rb ∈ verts := reaches_mem hwf hb hpb
    obtain ⟨hwf3, hchar⟩ := update_root_spec hwf2 hra2 hrb2 heq hraV hrbV
    refine ⟨hwf3, ?_⟩
    intro u v
    rw [hchar u v, ← hrepl u v]
    exact relJoin_congr (sameRoot_congr hiff12) ra rb u v

theorem relJoin_equivalence {V : Type} {R : V → V → Prop} (hR : Equivalence R)
    (a b : V) : Equivalence (relJoin R a b) := by
  constructor
  · intro u
    exact Or.inl (hR.refl u)
  · intro u v h
    rcases h with h | ⟨h1, h2⟩ | ⟨h1, h2⟩
    · exact Or.inl (hR.symm h)
    · exact Or.inr (Or.inr ⟨hR.symm h2, hR.symm h1⟩)
    · exact Or.inr (Or.inl ⟨hR.symm h2, hR.symm h1⟩)
  · intro u v w h1 h2
    rcases h1 with h1 | ⟨h1a, h1b⟩ | ⟨h1a, h1b⟩ <;>
      rcases h2 with h2 | ⟨h2a, h2b⟩ | ⟨h2a, h2b⟩
    · exact Or.inl (hR.trans h1 h2)
    · exact Or.inr (Or.inl ⟨hR.trans h1 h2a, h2b⟩)
    · exact Or.inr (Or.inr ⟨hR.trans h1 h2a, h2b⟩)
    · exact Or.inr (Or.inl ⟨h1a, hR.trans h1b h2⟩)
    · exact Or.inl (hR.trans h1a (hR.trans (hR.symm (hR.trans h1b h2a)) h2b))
    · exact Or.inl (hR.trans h1a h2b)
    · exact Or.inr (Or.inr ⟨h1a, hR.trans h1b h2⟩)
    · exact Or.inl (hR.trans h1a h2b)
    · exact Or.inl (hR.trans (hR.trans h1a (hR.symm (hR.trans h1b h2a))) h2b)

theorem eqvGen_mono_into {V : Type} {r s : V → V → Prop}
    (h : ∀ u v, r u v → Relation.EqvGen s u v) {u v : V}
    (hr : Relation.EqvGen r u v) : Relation.EqvGen s u v := by
  induction hr with
  | rel x y hxy => exact h x y hxy
  | refl x => exact Relation.EqvGen.refl x
  | symm x y _ ih => exact Relation.EqvGen.symm x y ih
  | trans x y z _ _ ih1 ih2 => exact Relation.EqvGen.trans x y z ih1 ih2

theorem eqvGen_join_step {V : Type} {R : V → V → Prop} (hR : Equivalence R)
    (a b : V) (es : List (List V)) (u v : V) :
    Relation.EqvGen (fun x y => relJoin R a b x y ∨ edgeRel es x y) u v ↔
      Relation.EqvGen (fun x y => R x y ∨ edgeRel ([a, b] :: es) x y) u v := by
  constructor
  · refine eqvGen_mono_into ?_
    intro x y hxy
    rcases hxy with (h | ⟨h1, h2⟩ | ⟨h1, h2⟩) | h
    · exact Relation.EqvGen.rel x y (Or.inl h)
    · -- x ~R a, edge a-b, b ~R y
      refine Relation.EqvGen.trans x a y (Relation.EqvGen.rel x a (Or.inl h1)) ?_
      refine Relation.EqvGen.trans a b y
        (Relation.EqvGen.rel a b (Or.inr (Or.inl (List.mem_cons_self _ _)))) ?_
      exact Relation.EqvGen.rel b y (Or.inl h2)
    · refine Relation.EqvGen.trans x b y (Relation.EqvGen.rel x b (Or.inl h1)) ?_
      refine Relation.EqvGen.trans b a y
        (Relation.EqvGen.rel b a (Or.inr (Or.inr (List.mem_cons_self _ _)))) ?_
      exact Relation.EqvGen.rel a y (Or.inl h2)
    · rcases h with h | h
      · exact Relation.EqvGen.rel x y (Or.inr (Or.inl (List.mem_cons_of_mem _ h)))
      · exact Relation.EqvGen.rel x y (Or.inr (Or.inr (List.mem_cons_of_mem _ h)))
  · refine eqvGen_mono_into ?_
    intro x y hxy
    rcases hxy with h | h
    · exact Relation.EqvGen.rel x y (Or.inl (Or.inl h))
    · rcases h with h | h
      · rcases List.mem_cons.mp h with heq | hmem
        · have hx : x = a ∧ y = b := by simpa using heq
          rcases hx with ⟨rfl, rfl⟩
          exact Relation.EqvGen.rel x y
            (Or.inl (Or.inr (Or.inl ⟨hR.refl x, hR.refl y⟩)))
        · exact Relation.EqvGen.rel x y (Or.inr (Or.inl hmem))
      · rcases List.mem_cons.mp h with heq | hmem
        · have hx : y = a ∧ x = b := by simpa using heq
          rcases hx with ⟨rfl, rfl⟩
          exact Relation.EqvGen.rel x y
            (Or.inl (Or.inr (Or.inr ⟨hR.refl x, hR.refl y⟩)))
        · exact Relation.EqvGen.rel x y (Or.inr (Or.inr hmem))

theorem eqvGen_skip_step {V : Type} {R : V → V → Prop}
    (e : List V) (hshape : ∀ x y : V, e ≠ [x, y]) (es : List (List V)) (u v : V) :
    Relation.EqvGen (fun x y => R x y ∨ edgeRel es x y) u v ↔
      Relation.EqvGen (fun x y => R x y ∨ edgeRel (e :: es) x y) u v := by
  constructor
  · refine eqvGen_mono_into ?_
    intro x y hxy
    rcases hxy with h | h
    · exact Relation.EqvGen.rel x y (Or.inl h)
    · rcases h with h | h
      · exact Relation.EqvGen.rel x y (Or.inr (Or.inl (List.mem_cons_of_mem _ h)))
      · exact Relation.EqvGen.rel x y (Or.inr (Or.inr (List.mem_cons_of_mem _ h)))
  · refine eqvGen_mono_into ?_
    intro x y hxy
    rcases hxy with h | h
    · exact Relation.EqvGen.rel x y (Or.inl h)
    · rcases h with h | h
      · rcases List.mem_cons.mp h with heq | hmem
        · exact absurd heq.symm (hshape x y)
        · exact Relation.EqvGen.rel x y (Or.inr (Or.inl hmem))
      · rcases List.mem_cons.mp h with heq | hmem
        · exact absurd heq.symm (hshape y x)
        · exact Relation.EqvGen.rel x y (Or.inr (Or.inr hmem))

theorem ufProcessEdges_spec {V : Type} [DecidableEq V] {verts : Finset V}
    (fuel : ℕ) (hfuel : verts.card ≤ fuel) :
    ∀ (edges : List (List V)) (p : V → V) (R : V → V → Prop),
      UFWF verts p → Equivalence R → (∀ u v, sameRoot p u v ↔ R u v) →
      (∀ e ∈ edges, ∀ x ∈ e, x ∈ verts) →
      UFWF verts (ufProcessEdges fuel p edges) ∧
      (∀ u v, sameRoot (ufProcessEdges fuel p edges) u v ↔
        Relation.EqvGen (fun x y => R x y ∨ edgeRel edges x y) u v) := by
  intro edges
  induction edges with
  | nil =>
      intro p R hwf hR hbase hin
      refine ⟨hwf, fun u v => ?_⟩
      rw [ufProcessEdges, List.foldl_nil, hbase]
      constructor
      · intro h
        exact Relation.EqvGen.rel u v (Or.inl h)
      · intro h
        induction h with
        | rel x y hxy =>
            rcases hxy with h | h
            · exact h
            · rcases h with h | h <;> exact absurd h (List.not_mem_nil _)
        | refl x => exact hR.refl x
        | symm x y _ ih => exact hR.symm ih
        | trans x y z _ _ ih1 ih2 => exact hR.trans ih1 ih2
  | cons e es ih =>
      intro p R hwf hR hbase hin
      have hfold : ufProcessEdges fuel p (e :: es) =
          ufProcessEdges fuel (match e with
            | [a, b] => ufUnion fuel p a b
            | _ => p) es := by
        rw [ufProcessEdges, List.foldl_cons, ufProcessEdges]
        rfl
      match e with
      | [a, b] =>
          have ha : a ∈ verts := hin _ (List.mem_cons_self _ _) a (by simp)
          have hb : b ∈ verts := hin _ (List.mem_cons_self _ _) b (by simp)
          obtain ⟨hwf1, hchar⟩ := ufUnion_spec hwf fuel hfuel a b ha hb
          have hbase1 : ∀ u v, sameRoot (ufUnion fuel p a b) u v ↔
              relJoin R a b u v := by
            intro u v
            rw [hchar u v]
            unfold relJoin
            rw [hbase, hbase, hbase, hbase, hbase]
          obtain ⟨hw1, hfinal⟩ := ih (ufUnion fuel p a b) (relJoin R a b) hwf1
            (relJoin_equivalence hR a b) hbase1
            (fun e' he' => hin e' (List.mem_cons_of_mem _ he'))
          rw [hfold]
          refine ⟨hw1, fun u v => ?_⟩
          rw [hfinal u v]
          exact eqvGen_join_step hR a b es u v
      | [] =>
          rw [hfold]
          obtain ⟨hw2, hfinal⟩ := ih p R hwf hR hbase
            (fun e' he' => hin e' (List.mem_cons_of_mem _ he'))
          refine ⟨hw2, fun u v => ?_⟩
          rw [hfinal u v]
          exact eqvGen_skip_step [] (fun x y h => List.noConfusion h) es u v
      | [a] =>
          rw [hfold]
          obtain ⟨hw2, hfinal⟩ := ih p R hwf hR hbase
            (fun e' he' => hin e' (List.mem_cons_of_mem _ he'))
          refine ⟨hw2, fun u v => ?_⟩
          rw [hfinal u v]
          refine eqvGen_skip_step [a] ?_ es u v
          intro x y h
          simp at h
      | a :: b :: c :: rest =>
          rw [hfold]
          obtain ⟨hw2, hfinal⟩ := ih p R hwf hR hbase
            (fun e' he' => hin e' (List.mem_cons_of_mem _ he'))
          refine ⟨hw2, fun u v => ?_⟩
          rw [hfinal u v]
          refine eqvGen_skip_step (a :: b :: c :: rest) ?_ es u v
          intro x y h
          simp at h

theorem ufCollectRoots_spec {V : Type} [DecidableEq V] {verts : Finset V}
    (fuel : ℕ) (hfuel : verts.card ≤ fuel) :
    ∀ (vs : List V) (p : V → V), UFWF verts p →
      UFWF verts (ufCollectRoots fuel p vs).2 ∧
      (∀ v s, Reaches (ufCollectRoots fuel p vs).2 v s ↔ Reaches p v s) ∧
      List.Forall₂ (fun v r => Reaches p v r) vs (ufCollectRoots fuel p vs).1 := by
  intro vs
  induction vs with
  | nil =>
      intro p hwf
      exact ⟨hwf, fun v s => Iff.rfl, List.Forall₂.nil⟩
  | cons v vs ih =>
      intro p hwf
      obtain ⟨r, k, hk, hre⟩ := reaches_bound hwf v
      obtain ⟨hfst, hwf1, hpres⟩ :=
        ufFindAux_spec fuel p v r k hwf hre (le_trans hk hfuel)
      obtain ⟨hwf2, hpres2, hfa⟩ := ih (ufFindAux fuel p v).2 hwf1
      have hunf : ufCollectRoots fuel p (v :: vs) =
          ((ufFindAux fuel p v).1 ::
            (ufCollectRoots fuel (ufFindAux fuel p v).2 vs).1,
           (ufCollectRoots fuel (ufFindAux fuel p v).2 vs).2) := rfl
      rw [hunf]
      refine ⟨hwf2, ?_, ?_⟩
      · intro x s
        rw [hpres2 x s, hpres x s]
      · refine List.Forall₂.cons ?_ ?_
        · rw [hfst]
          exact ⟨k, hre⟩
        · exact hfa.imp fun a b h => (hpres a b).mp h

theorem eqvGen_or_eq {V : Type} (E : V → V → Prop) (u v : V) :
    Relation.EqvGen (fun x y => x = y ∨ E x y) u v ↔
      Relation.EqvGen E u v := by
  constructor
  · refine eqvGen_mono_into ?_
    intro x y hxy
    rcases hxy with h | h
    · exact h ▸ Relation.EqvGen.refl x
    · exact Relation.EqvGen.rel x y h
  · refine eqvGen_mono_into ?_
    intro x y hxy
    exact Relation.EqvGen.rel x y (Or.inr hxy)

theorem pRoot_eq_of_reaches {V : Type} {p : V → V} {x r : V}
    (h : Reaches p x r) : pRoot p x = r := by
  classical
  have hex : ∃ s, Reaches p x s := ⟨r, h⟩
  rw [pRoot, dif_pos hex]
  exact reaches_unique hex.choose_spec h

theorem pRoot_reaches {V : Type} {p : V → V} {x : V}
    (h : ∃ s, Reaches p x s) : Reaches p x (pRoot p x) := by
  classical
  rw [pRoot, dif_pos h]
  exact h.choose_spec

theorem forall₂_roots_map {V : Type} {p : V → V} :
    ∀ {vs rs : List V}, List.Forall₂ (fun v r => Reaches p v r) vs rs →
      rs = vs.map (pRoot p) := by
  intro vs rs h
  induction h with
  | nil => rfl
  | cons hvr _ ih =>
      rw [List.map_cons, ← ih, pRoot_eq_of_reaches hvr]

theorem image_card_congr {V W X : Type} [DecidableEq W] [DecidableEq X]
    (s : Finset V) (f : V → W) (g : V → X)
    (h : ∀ a ∈ s, ∀ b ∈ s, (f a = f b ↔ g a = g b)) :
    (s.image f).card = (s.image g).card := by
  classical
  induction s using Finset.induction_on with
  | empty => simp
  | insert ha ih =>
      rename_i a s
      rw [Finset.image_insert, Finset.image_insert,
        Finset.card_insert_eq_ite, Finset.card_insert_eq_ite,
        ih (fun x hx y hy => h x (Finset.mem_insert_of_mem hx) y
          (Finset.mem_insert_of_mem hy))]
      have hmem : f a ∈ s.image f ↔ g a ∈ s.image g := by
        simp only [Finset.mem_image]
        constructor
        · rintro ⟨x, hx, hfx⟩
          exact ⟨x, hx, ((h x (Finset.mem_insert_of_mem hx) a
            (Finset.mem_insert_self a s)).mp hfx)⟩
        · rintro ⟨x, hx, hgx⟩
          exact ⟨x, hx, ((h x (Finset.mem_insert_of_mem hx) a
            (Finset.mem_insert_self a s)).mpr hgx)⟩
      by_cases hf : f a ∈ s.image f
      · rw [if_pos hf, if_pos (hmem.mp hf)]
      · rw [if_neg hf, if_neg (fun hg => hf (hmem.mpr hg))]

open Classical in
theorem filter_class_eq_iff {V : Type} (s : Finset V) (E : V → V → Prop)
    (a b : V) (ha : a ∈ s) (hb : b ∈ s) :
    ((s.filter fun u => Relation.EqvGen E a u) =
        (s.filter fun u => Relation.EqvGen E b u)) ↔
      Relation.EqvGen E a b := by
  constructor
  · intro heq
    have haa : a ∈ s.filter fun u => Relation.EqvGen E a u :=
      Finset.mem_filter.mpr ⟨ha, Relation.EqvGen.refl a⟩
    rw [heq] at haa
    exact Relation.EqvGen.symm _ _ (Finset.mem_filter.mp haa).2
  · intro hab
    ext u
    simp only [Finset.mem_filter]
    constructor
    · rintro ⟨hu, hau⟩
      exact ⟨hu, Relation.EqvGen.trans _ _ _ (Relation.EqvGen.symm _ _ hab) hau⟩
    · rintro ⟨hu, hbu⟩
      exact ⟨hu, Relation.EqvGen.trans _ _ _ hab hbu⟩

theorem list_toFinset_map {V W : Type} [DecidableEq V] [DecidableEq W]
    (l : List V) (f : V → W) : (l.map f).toFinset = l.toFinset.image f := by
  ext x
  simp [List.mem_map]

open Classical in
theorem beta0_correct {V : Type} [DecidableEq V] (vertices : List V)
    (edges : List (List V))
    (hin : ∀ e ∈ edges, ∀ x ∈ e, x ∈ vertices) :
    beta0UnionFind vertices edges =
      (vertices.toFinset.image fun v =>
        vertices.toFinset.filter fun u =>
          Relation.EqvGen (edgeRel edges) v u).card := by
  classical
  set verts : Finset V := vertices.toFinset with hverts
  set fuel : ℕ := vertices.length + 2 with hfueldef
  have hfuel : verts.card ≤ fuel := by
    calc verts.card ≤ vertices.length := List.toFinset_card_le vertices
      _ ≤ fuel := by omega
  have hwf0 : UFWF verts (fun v => v) := by
    exact ⟨fun y hy => absurd rfl hy, fun v => ⟨v, 0, rfl, rfl⟩⟩
  have hbase : ∀ u v : V, sameRoot (fun v => v) u v ↔ u = v := by
    intro u v
    constructor
    · rintro ⟨r, ⟨k, hk, _⟩, ⟨m, hm, _⟩⟩
      rw [Function.iterate_fixed rfl k] at hk
      rw [Function.iterate_fixed rfl m] at hm
      rw [hk, hm]
    · rintro rfl
      exact ⟨u, ⟨0, rfl, rfl⟩, ⟨0, rfl, rfl⟩⟩
  have hinF : ∀ e ∈ edges, ∀ x ∈ e, x ∈ verts := by
    intro e he x hx
    exact List.mem_toFinset.mpr (hin e he x hx)
  obtain ⟨hwfF, hcharF⟩ := ufProcessEdges_spec fuel hfuel edges
    (fun v => v) Eq hwf0 eq_equivalence hbase hinF
  set pF : V → V := ufProcessEdges fuel (fun v => v) edges with hpF
  have hchar : ∀ u v, sameRoot pF u v ↔ Relation.EqvGen (edgeRel edges) u v := by
    intro u v
    rw [hcharF u v, eqvGen_or_eq]
  obtain ⟨hwfC, hpresC, hfa⟩ := ufCollectRoots_spec fuel hfuel vertices pF hwfF
  have hroots : (ufCollectRoots fuel pF vertices).1 = vertices.map (pRoot pF) :=
    forall₂_roots_map hfa
  have hbeta : beta0UnionFind vertices edges =
      ((ufCollectRoots fuel pF vertices).1).dedup.length := rfl
  rw [hbeta, hroots]
  have hded : (vertices.map (pRoot pF)).dedup.length =
      (vertices.map (pRoot pF)).toFinset.card :=
    (List.card_toFinset _).symm
  rw [hded, list_toFinset_map]
  refine image_card_congr verts (pRoot pF) _ ?_
  intro a ha b hb
  have hra : Reaches pF a (pRoot pF a) := pRoot_reaches (hwfF.2 a)
  have hrb : Reaches pF b (pRoot pF b) := pRoot_reaches (hwfF.2 b)
  have hstep : pRoot pF a = pRoot pF b ↔ sameRoot pF a b := by
    constructor
    · intro h
      exact ⟨pRoot pF b, h ▸ hra, hrb⟩
    · rintro ⟨r, h1, h2⟩
      rw [pRoot_eq_of_reaches h1, pRoot_eq_of_reaches h2]
  rw [hstep, hchar a b]
  exact (filter_class_eq_iff verts (edgeRel edges) a b ha hb).symm

theorem vertsOf_simplicesByDim {α : Type} [DecidableEq α] [LinearOrder α]
    (bookings : List (Booking α)) :
    vertsOf (simplicesByDim bookings) = entitiesOf bookings := by
  rw [vertsOf]
  have h0 : simplicesByDim bookings 0 =
      (entitiesOf bookings).map fun e => [e] := by
    rw [simplicesByDim, if_pos rfl]
  rw [h0, List.filterMap_map]
  have hcomp : ((entitiesOf bookings).filterMap
      (List.head? ∘ fun e : Entity α => [e])) = entitiesOf bookings := by
    have : (List.head? ∘ fun e : Entity α => [e]) = some := by
      funext e
      rfl
    rw [this, List.filterMap_some]
  rw [hcomp, entitiesOf, List.dedup_idem]

theorem booking_edge_endpoints {α : Type} [DecidableEq α] [LinearOrder α]
    (bookings : List (Booking α)) :
    ∀ e ∈ simplicesByDim bookings 1, ∀ x ∈ e,
      x ∈ vertsOf (simplicesByDim bookings) := by
  intro e he x hx
  rw [vertsOf_simplicesByDim]
  rw [simplicesByDim] at he
  rw [if_neg (by omega : ¬ (1 : ℕ) = 0)] at he
  rw [List.mem_dedup, List.mem_map] at he
  obtain ⟨s, hs, hcanon⟩ := he
  rw [List.mem_flatMap] at hs
  obtain ⟨b, hb, hsb⟩ := hs
  have hsl := (rawSimplicesAt_spec b 1 s hsb).1
  have hxs : x ∈ s := by
    rw [← hcanon] at hx
    exact (List.mem_insertionSort _).mp hx
  exact mem_entitiesOf bookings b hb x (hsl.mem hxs)

open Classical in
theorem bettiVal_zero_components {α : Type} [DecidableEq α] [LinearOrder α]
    (bookings : List (Booking α)) :
    bettiVal (simplicesByDim bookings) 0 =
      numComponents1 (simplicesByDim bookings) := by
  classical
  by_cases hemp : (simplicesByDim bookings 0).isEmpty
  · rw [bettiVal, if_pos hemp]
    have h0 : simplicesByDim bookings 0 = [] := List.isEmpty_iff.mp hemp
    have hv : vertsOf (simplicesByDim bookings) = [] := by
      rw [vertsOf, h0]
      rfl
    rw [numComponents1, hv]
    simp
  · rw [bettiVal, if_pos rfl, if_neg hemp]
    rw [numComponents1]
    exact beta0_correct _ _ (booking_edge_endpoints bookings)

/-- C4: for every booking relation, the returned `beta_0` equals the exact
number of connected components of the 1-skeleton (vertices plus 1-simplices),
and for every `1 ≤ k ≤` the top dimension key the returned `beta_k` equals
`max(0, n_k - n_(k-1) - n_(k+1))` over the per-dimension simplex counts; in
particular the single 4-way booking over four distinct entities yields 4
vertices, 6 edges, 4 triangles, 1 tetrahedron and `beta_0 = 1`. -/
theorem booking_betti_spec {α : Type} [DecidableEq α] [LinearOrder α]
    (bookings : List (Booking α)) :
    ((bookingBetti bookings).getD 0 (0, 0) =
      (0, numComponents1 (simplicesByDim bookings))) ∧
    (∀ k, 1 ≤ k → k ≤ maxDimKey bookings →
      (bookingBetti bookings).getD k (0, 0) =
        (k, (max 0 ((bookingCount bookings k : ℤ) -
          (bookingCount bookings (k - 1) : ℤ) -
          (bookingCount bookings (k + 1) : ℤ))).toNat)) ∧
    bookingCount [booking4] 0 = 4 ∧ bookingCount [booking4] 1 = 6 ∧
    bookingCount [booking4] 2 = 4 ∧ bookingCount [booking4] 3 = 1 ∧
    (bookingBetti [booking4]).getD 0 (0, 0) = (0, 1) := by
  refine ⟨?_, ?_, by decide, by decide, by decide, by decide, by decide⟩
  · rw [bookingBetti, computeBettiNumbers,
      getD_map_range (maxDimKey bookings + 1) 0 _ _ (by omega)]
    rw [bettiVal_zero_components]
  · intro k hk1 hkm
    rw [bookingBetti, computeBettiNumbers,
      getD_map_range (maxDimKey bookings + 1) k _ _ (by omega)]
    have hkne : ¬ k = 0 := by omega
    by_cases hemp : (simplicesByDim bookings k).isEmpty
    · rw [bettiVal, if_pos hemp]
      have hnil : simplicesByDim bookings k = [] := List.isEmpty_iff.mp hemp
      have hc : bookingCount bookings k = 0 := by
        rw [bookingCount, hnil]
        rfl
      have h2 : (max 0 ((bookingCount bookings k : ℤ) -
          (bookingCount bookings (k - 1) : ℤ) -
          (bookingCount bookings (k + 1) : ℤ))).toNat = 0 := by
        rw [hc]
        have hle : ((0 : ℕ) : ℤ) - (bookingCount bookings (k - 1) : ℤ) -
            (bookingCount bookings (k + 1) : ℤ) ≤ 0 := by omega
        rw [max_eq_left hle]
        rfl
      rw [h2]
    · rw [bettiVal, if_neg hemp, if_neg hkne]
      rfl

/-- C4 witness: the `k ≥ 1` clause instantiated at `k = 1` for the single
4-way booking. -/
theorem booking_betti_spec_witness :
    (bookingBetti [booking4]).getD 1 (0, 0) =
      (1, (max 0 ((bookingCount [booking4] 1 : ℤ) -
        (bookingCount [booking4] 0 : ℤ) -
        (bookingCount [booking4] 2 : ℤ))).toNat) :=
  (booking_betti_spec [booking4]).2.1 1 (by decide) (by decide)
